import Mathlib

/-!
Verification of the transactional write-buffer interceptor
(pkg/kv/kvclient/kvcoord/txn_interceptor_write_buffer.go).

The interceptor buffers blind writes (Put/Delete), decomposes ConditionalPuts
into a locking Get plus a deferred write, serves read-your-own-writes from the
buffer, merges buffered writes into Scan/ReverseScan responses, and flushes the
buffer when the batch carries an EndTxn request.

Modelling conventions:
- Binary keys and byte payloads are lists of naturals compared lexicographically
  (bytes.Compare).
- A roachpb.Value is modelled as Option Bytes: none stands for an absent value
  (IsPresent() == false), i.e. a deletion tombstone when buffered.
- The interval btree holding bufferedWrite records is modelled by its contents:
  a list of records in ascending key order. Records are points; the unused
  endKey field of bufferedWrite (present in the source only to satisfy the
  interval-container contract, and explicitly ignored by range queries) is
  omitted. Range queries take the seek range as arguments.
- Go slices become lists, TxnSeq sequence numbers become naturals.
- The wrapped sender is a function parameter; errors are modelled by PErr.
-/

namespace WriteBuffer

/-- Binary key: raw bytes. -/
abbrev Key := List Nat

/-- Byte payload. -/
abbrev Bytes := List Nat

/-- roachpb.Value: none models an absent value (IsPresent false / tombstone). -/
abbrev Value := Option Bytes

/-- Three-way comparison of bytes. -/
def natCmp (a b : Nat) : Ordering :=
  if a < b then .lt else if a = b then .eq else .gt

theorem natCmp_eq_lt {a b : Nat} : natCmp a b = .lt ↔ a < b := by
  unfold natCmp
  split
  · simp; omega
  · split <;> simp <;> omega

theorem natCmp_eq_eq {a b : Nat} : natCmp a b = .eq ↔ a = b := by
  unfold natCmp
  split
  · simp; omega
  · split <;> simp <;> omega

theorem natCmp_eq_gt {a b : Nat} : natCmp a b = .gt ↔ b < a := by
  unfold natCmp
  split
  · simp; omega
  · split <;> simp <;> omega

/-- Lexicographic comparison of raw byte strings (bytes.Compare / Key.Compare). -/
def keyCmp : Key → Key → Ordering
  | [], [] => .eq
  | [], _ :: _ => .lt
  | _ :: _, [] => .gt
  | a :: as, b :: bs =>
    match natCmp a b with
    | .eq => keyCmp as bs
    | o => o

/-- Strict ascending key order. -/
def keyLt (a b : Key) : Prop := keyCmp a b = .lt

instance : DecidablePred (fun p : Key × Key => keyLt p.1 p.2) := by
  intro p
  unfold keyLt
  infer_instance

instance (a b : Key) : Decidable (keyLt a b) := by
  unfold keyLt
  infer_instance

theorem keyCmp_self (a : Key) : keyCmp a a = .eq := by
  induction a with
  | nil => rfl
  | cons x xs ih =>
    simp only [keyCmp, natCmp_eq_eq.mpr rfl]
    exact ih

theorem keyCmp_eq_iff {a b : Key} : keyCmp a b = .eq ↔ a = b := by
  constructor
  · intro h
    induction a generalizing b with
    | nil => cases b with
      | nil => rfl
      | cons y ys => simp [keyCmp] at h
    | cons x xs ih =>
      cases b with
      | nil => simp [keyCmp] at h
      | cons y ys =>
        simp only [keyCmp] at h
        rcases hc : natCmp x y with _ | _ | _ <;> rw [hc] at h
        · exact absurd h (by simp)
        · rw [natCmp_eq_eq.mp hc, ih h]
        · exact absurd h (by simp)
  · intro h; subst h; exact keyCmp_self a

theorem keyCmp_swap (a b : Key) : (keyCmp a b).swap = keyCmp b a := by
  induction a generalizing b with
  | nil => cases b <;> rfl
  | cons x xs ih =>
    cases b with
    | nil => rfl
    | cons y ys =>
      simp only [keyCmp]
      rcases hc : natCmp x y with _ | _ | _
      · have : natCmp y x = .gt := natCmp_eq_gt.mpr (natCmp_eq_lt.mp hc)
        rw [this]; rfl
      · have hxy : x = y := natCmp_eq_eq.mp hc
        subst hxy
        rw [natCmp_eq_eq.mpr rfl]
        exact ih ys
      · have : natCmp y x = .lt := natCmp_eq_lt.mpr (natCmp_eq_gt.mp hc)
        rw [this]; rfl

theorem keyCmp_gt_iff {a b : Key} : keyCmp a b = .gt ↔ keyCmp b a = .lt := by
  constructor
  · intro h
    have := keyCmp_swap a b
    rw [h] at this
    simpa [Ordering.swap] using this.symm
  · intro h
    have := keyCmp_swap b a
    rw [h] at this
    simpa [Ordering.swap] using this.symm

theorem keyCmp_cons_lt {x y : Nat} {xs ys : Key} :
    keyCmp (x :: xs) (y :: ys) = .lt ↔ x < y ∨ (x = y ∧ keyCmp xs ys = .lt) := by
  simp only [keyCmp]
  rcases h : natCmp x y with _ | _ | _
  · have hx := natCmp_eq_lt.mp h
    simp [hx]
  · have hx := natCmp_eq_eq.mp h
    simp [hx]
  · have hx := natCmp_eq_gt.mp h
    simp [show ¬ x < y by omega, show ¬ x = y by omega]

theorem keyLt_trans {a b c : Key} (hab : keyLt a b) (hbc : keyLt b c) : keyLt a c := by
  unfold keyLt at *
  induction a generalizing b c with
  | nil =>
    cases c with
    | nil =>
      cases b with
      | nil => exact hbc
      | cons y ys => simp [keyCmp] at hbc
    | cons z zs => rfl
  | cons x xs ih =>
    cases b with
    | nil => simp [keyCmp] at hab
    | cons y ys =>
      cases c with
      | nil => simp [keyCmp] at hbc
      | cons z zs =>
        rw [keyCmp_cons_lt] at hab hbc ⊢
        rcases hab with h1 | ⟨h1, h1'⟩ <;> rcases hbc with h2 | ⟨h2, h2'⟩
        · left; omega
        · left; omega
        · left; omega
        · exact Or.inr ⟨by omega, ih h1' h2'⟩

theorem keyLt_irrefl (a : Key) : ¬ keyLt a a := by
  unfold keyLt
  rw [keyCmp_self]
  simp

theorem keyLt_ne {a b : Key} (h : keyLt a b) : a ≠ b := by
  intro heq
  subst heq
  exact keyLt_irrefl a h

/-- A value buffered for a key at a sequence number (bufferedValue). -/
structure BufferedValue where
  val : Value
  seq : Nat
  deriving DecidableEq, Repr

/-- A buffered write record (bufferedWrite). The source also carries an endKey
field used only to satisfy the interval-container contract; it is semantically
meaningless (ignored by range queries) and omitted here. -/
structure BufferedWrite where
  id : Nat
  key : Key
  vals : List BufferedValue
  deriving DecidableEq, Repr

/-- The interval btree contents, in ascending key order. -/
abbrev Buffer := List BufferedWrite

/-- Point lookup: FirstOverlap with a point seek finds the record with the
same key (records are points; keys are unique). -/
def bufferLookup (buf : Buffer) (key : Key) : Option BufferedWrite :=
  buf.find? (fun bw => keyCmp bw.key key = .eq)

/-- Whether the point key lies in the seek range, start ≤ k < end. -/
def rangeContains (startKey endKey k : Key) : Bool :=
  keyCmp startKey k ≠ .gt && keyCmp k endKey = .lt

/-- The records overlapping the seek range, in ascending key order
(FirstOverlap/NextOverlap iteration). -/
def overlapAsc (buf : Buffer) (startKey endKey : Key) : Buffer :=
  buf.filter (fun bw => rangeContains startKey endKey bw.key)

/-- scanOverlaps: whether the given key range overlaps any buffered write. -/
def scanOverlaps (buf : Buffer) (startKey endKey : Key) : Bool :=
  !(overlapAsc buf startKey endKey).isEmpty

/-- The loop body of maybeServeRead over the reversed vals slice: iterate from
the end of the ascending list, return the first value with seq ≤ the read seq. -/
def servedValRev : List BufferedValue → Nat → Option Value
  | [], _ => none
  | bv :: rest, seq => if bv.seq ≤ seq then some bv.val else servedValRev rest seq

/-- Search vals (ascending in seq) from the back for the first entry with
seq ≤ the read sequence number. -/
def servedVal (vals : List BufferedValue) (seq : Nat) : Option Value :=
  servedValRev vals.reverse seq

/-- maybeServeRead: serve the read from the buffer if the key has a buffered
write visible at seq; none means the read was not served. -/
def maybeServeRead (buf : Buffer) (key : Key) (seq : Nat) : Option Value :=
  match bufferLookup buf key with
  | some bw => servedVal bw.vals seq
  | none => none

/-- btree Set: insert a record in key order, replacing any record with the
same key. -/
def bufferSet (buf : Buffer) (bw : BufferedWrite) : Buffer :=
  match buf with
  | [] => [bw]
  | b :: rest =>
    match keyCmp bw.key b.key with
    | .lt => bw :: b :: rest
    | .eq => bw :: rest
    | .gt => b :: bufferSet rest bw

/-- Append a buffered value to the existing record for the key (the in-place
mutation bw.vals = append(bw.vals, ...) in addToBuffer). -/
def bufferAppendVal (buf : Buffer) (key : Key) (bv : BufferedValue) : Buffer :=
  match buf with
  | [] => []
  | b :: rest =>
    if keyCmp b.key key = .eq then { b with vals := b.vals ++ [bv] } :: rest
    else b :: bufferAppendVal rest key bv

/-- Transaction-scoped interceptor state (txnWriteBuffer). The wrapped sender
is passed as a function parameter where needed. -/
structure TxnWriteBuffer where
  enabled : Bool
  buffer : Buffer
  bufferIDAlloc : Nat
  deriving DecidableEq, Repr

/-- addToBuffer: append the value to the key's record, or insert a fresh
record with a newly allocated id. -/
def addToBuffer (twb : TxnWriteBuffer) (key : Key) (val : Value) (seq : Nat) :
    TxnWriteBuffer :=
  if (bufferLookup twb.buffer key).isSome then
    { twb with buffer := bufferAppendVal twb.buffer key ⟨val, seq⟩ }
  else
    { twb with
      bufferIDAlloc := twb.bufferIDAlloc + 1,
      buffer := bufferSet twb.buffer
        ⟨twb.bufferIDAlloc + 1, key, [⟨val, seq⟩]⟩ }

/-- Total byte footprint of the buffer, Sum over records of len(key) plus the
byte length of each buffered value (an absent value contributes 0). -/
def valueLen : Value → Nat
  | none => 0
  | some b => b.length

def bufferSize (buf : Buffer) : Nat :=
  buf.foldl (fun acc bw =>
    acc + bw.key.length + bw.vals.foldl (fun a bv => a + valueLen bv.val) 0) 0

/-- Well-formedness invariant of the buffer: records strictly ascending by key
(hence keys unique), and each record's vals non-empty and strictly ascending
in seq. -/
def BufferWF (buf : Buffer) : Prop :=
  List.Pairwise (fun a b : BufferedWrite => keyLt a.key b.key) buf ∧
    ∀ bw ∈ buf, bw.vals ≠ [] ∧
      List.Pairwise (fun u v : BufferedValue => u.seq < v.seq) bw.vals

instance (buf : Buffer) : Decidable (BufferWF buf) := by
  unfold BufferWF
  infer_instance

/-- Key locking strength of a Get request (lock.None means non-locking). -/
inductive LockStrength where
  | none
  | shared
  | exclusive
  deriving DecidableEq, Repr

/-- The request kinds handled by the interceptor. Fields mirror the request
protos: key, optional end key, value, sequence number, and for conditional
puts the expected bytes and allow-if-does-not-exist flag. Requests of any
other kind are passed through unchanged and collapsed into other. -/
inductive Request where
  | put (key : Key) (value : Value) (seq : Nat)
  | delete (key : Key) (seq : Nat)
  | cput (key : Key) (value : Value) (expBytes : Bytes) (allowIfDoesNotExist : Bool) (seq : Nat)
  | get (key : Key) (seq : Nat) (strength : LockStrength) (lockNonExisting : Bool)
  | scan (key endKey : Key) (seq : Nat)
  | reverseScan (key endKey : Key) (seq : Nat)
  | endTxn (commit : Bool)
  | other
  deriving DecidableEq, Repr

/-- A row of a scan response (roachpb.KeyValue). -/
structure KeyVal where
  key : Key
  value : Value
  deriving DecidableEq, Repr

/-- Response union. empty is the zero ResponseUnion; a get response carries
an optional value (unset when the served value was absent). -/
inductive Response where
  | empty
  | put
  | delete (foundKey : Bool)
  | get (value : Value)
  | cput
  | scan (rows : List KeyVal)
  | reverseScan (rows : List KeyVal)
  | endTxn
  | other
  deriving DecidableEq, Repr

/-- Error kinds surfaced by the interceptor. -/
inductive ErrKind where
  | condFailed (actual : Value)
  | assertionFailed
  | fatal
  | other
  deriving DecidableEq, Repr

/-- An error, optionally carrying a request index and a transaction
attachment (NewErrorWithTxn). -/
structure PErr where
  kind : ErrKind
  index : Option Nat
  withTxn : Bool
  deriving DecidableEq, Repr

/-- A transformation record produced while rewriting a batch. -/
structure Transformation where
  stripped : Bool
  index : Nat
  origRequest : Request
  resp : Response
  deriving DecidableEq, Repr

/-- Accumulator state while walking the batch in applyTransformations:
the (possibly mutated) interceptor, the requests forwarded so far
(baRemote.Requests), and the transformations recorded so far. -/
structure TransformState where
  twb : TxnWriteBuffer
  forwarded : List Request
  ts : List Transformation
  deriving DecidableEq, Repr

/-- One arm of the per-request switch in applyTransformations, applied to the
request at original index i. -/
def applyOne (st : TransformState) (i : Nat) (req : Request) : TransformState :=
  match req with
  | .cput key _ expBytes allow seq =>
    { st with
      ts := st.ts ++ [{ stripped := false, index := i, origRequest := req, resp := .empty }],
      forwarded := st.forwarded ++
        [.get key seq .exclusive (expBytes.isEmpty || allow)] }
  | .put key value seq =>
    { st with
      twb := addToBuffer st.twb key value seq,
      ts := st.ts ++ [{ stripped := true, index := i, origRequest := req, resp := .put }] }
  | .delete key seq =>
    { st with
      twb := addToBuffer st.twb key none seq,
      ts := st.ts ++
        [{ stripped := true, index := i, origRequest := req, resp := .delete false }] }
  | .get key seq strength _ =>
    match maybeServeRead st.twb.buffer key seq with
    | some val =>
      let stripped : Bool := strength = LockStrength.none
      { st with
        forwarded := if stripped then st.forwarded else st.forwarded ++ [req],
        ts := st.ts ++
          [{ stripped := stripped, index := i, origRequest := req, resp := .get val }] }
    | none => { st with forwarded := st.forwarded ++ [req] }
  | .scan key endKey _ =>
    if scanOverlaps st.twb.buffer key endKey then
      { st with
        ts := st.ts ++ [{ stripped := false, index := i, origRequest := req, resp := .empty }],
        forwarded := st.forwarded ++ [req] }
    else { st with forwarded := st.forwarded ++ [req] }
  | .reverseScan key endKey _ =>
    if scanOverlaps st.twb.buffer key endKey then
      { st with
        ts := st.ts ++ [{ stripped := false, index := i, origRequest := req, resp := .empty }],
        forwarded := st.forwarded ++ [req] }
    else { st with forwarded := st.forwarded ++ [req] }
  | _ => { st with forwarded := st.forwarded ++ [req] }

/-- applyTransformations: walk the batch left to right, producing the batch to
forward and the list of transformations. -/
def applyTransformations (twb : TxnWriteBuffer) (ba : List Request) : TransformState :=
  ba.enum.foldl (fun st p => applyOne st p.1 p.2) ⟨twb, [], []⟩

/-- Direction-aware comparison used by mergeBufferAndResp: the buffer key is
compared against the next response key, and the result is inverted when
scanning in reverse (cmp = cmp * -1). -/
def dirOrd (reverse : Bool) (a b : Key) : Ordering :=
  if reverse then (keyCmp a b).swap else keyCmp a b

/-- Direction-aware strict order: a comes strictly before b in scan order. -/
def dirLt (reverse : Bool) (a b : Key) : Prop := dirOrd reverse a b = .lt

instance (reverse : Bool) (a b : Key) : Decidable (dirLt reverse a b) := by
  unfold dirLt
  infer_instance

/-- mergeBufferAndResp: merge-sort step between the buffered writes
overlapping the scanned span (bufIt, in scan direction) and the server's
response rows, preferring visible buffered values and suppressing visible
tombstones. The source runs this twice, once to count and once to fill an
exactly sized slice; the two passes are collapsed here into directly
producing the merged row list. -/
def mergeBufferAndResp (buf : Buffer) (seq : Nat) (reverse : Bool) :
    List BufferedWrite → List KeyVal → List KeyVal
  | [], rows => rows
  | bw :: bufRest, [] =>
    match maybeServeRead buf bw.key seq with
    | some (some b) => ⟨bw.key, some b⟩ :: mergeBufferAndResp buf seq reverse bufRest []
    | _ => mergeBufferAndResp buf seq reverse bufRest []
  | bw :: bufRest, r :: rowsRest =>
    match dirOrd reverse bw.key r.key with
    | .lt =>
      match maybeServeRead buf bw.key seq with
      | some (some b) =>
        ⟨bw.key, some b⟩ :: mergeBufferAndResp buf seq reverse bufRest (r :: rowsRest)
      | _ => mergeBufferAndResp buf seq reverse bufRest (r :: rowsRest)
    | .eq =>
      match maybeServeRead buf bw.key seq with
      | some (some b) => ⟨bw.key, some b⟩ :: mergeBufferAndResp buf seq reverse bufRest rowsRest
      | some none => mergeBufferAndResp buf seq reverse bufRest rowsRest
      | none => r :: mergeBufferAndResp buf seq reverse bufRest rowsRest
    | .gt => r :: mergeBufferAndResp buf seq reverse (bw :: bufRest) rowsRest
  termination_by bufIt rows => (rows.length, bufIt.length)

/-- mergeWithScanResp (KEY_VALUES format): forward merge over the records
overlapping the scanned span, iterated FirstOverlap/NextOverlap (ascending). -/
def mergeWithScanResp (twb : TxnWriteBuffer) (startKey endKey : Key) (seq : Nat)
    (rows : List KeyVal) : List KeyVal :=
  mergeBufferAndResp twb.buffer seq false (overlapAsc twb.buffer startKey endKey) rows

/-- mergeWithReverseScanResp (KEY_VALUES format): reverse merge, the buffer
iterated LastOverlap/PrevOverlap (descending). -/
def mergeWithReverseScanResp (twb : TxnWriteBuffer) (startKey endKey : Key) (seq : Nat)
    (rows : List KeyVal) : List KeyVal :=
  mergeBufferAndResp twb.buffer seq true
    ((overlapAsc twb.buffer startKey endKey).reverse) rows

/-- Modelled from the spec: mvcceval.MaybeConditionFailedError lives outside
the packaged sources (only its call site is under src/). Per the spec, the
condition is evaluated by comparing the returned get value against
expectedBytes with the client-side rule that a missing value matches iff
allowIfDoesNotExist. Returns true when the condition fails. -/
def maybeConditionFailedError (expBytes : Bytes) (actVal : Value)
    (allowNoExisting : Bool) : Bool :=
  match actVal with
  | some b => !(b = expBytes : Bool)
  | none => !allowNoExisting

/-- toResp: the response contributed by a transformation, together with the
resulting interceptor state (the source mutates twb in place; the error arm
leaves the buffer untouched). -/
def toResp (twb : TxnWriteBuffer) (t : Transformation) (br : Response) :
    Except PErr Response × TxnWriteBuffer :=
  if t.stripped then (.ok t.resp, twb)
  else
    match t.origRequest with
    | .cput key val expBytes allow seq =>
      let getVal : Value := match br with | .get v => v | _ => none
      if maybeConditionFailedError expBytes getVal allow then
        (.error { kind := .condFailed getVal, index := some t.index, withTxn := true }, twb)
      else
        (.ok .cput, addToBuffer twb key val seq)
    | .put _ _ _ => (.ok t.resp, twb)
    | .delete _ _ => (.ok t.resp, twb)
    | .get _ _ _ _ => (.ok t.resp, twb)
    | .scan key endKey seq =>
      match br with
      | .scan rows => (.ok (.scan (mergeWithScanResp twb key endKey seq rows)), twb)
      | _ => (.error { kind := .assertionFailed, index := none, withTxn := false }, twb)
    | .reverseScan key endKey seq =>
      match br with
      | .reverseScan rows =>
        (.ok (.reverseScan (mergeWithReverseScanResp twb key endKey seq rows)), twb)
      | _ => (.error { kind := .assertionFailed, index := none, withTxn := false }, twb)
    | _ => (.error { kind := .assertionFailed, index := none, withTxn := false }, twb)

/-- The walk of mergeResponseWithTransformations: i counts output positions;
a stripped transformation emits its synthesized response without consuming a
server response, a non-stripped one consumes the next server response and
post-processes it with toResp, and otherwise the next server response is
copied through. -/
def mergeRespLoop (twb : TxnWriteBuffer) (ts : List Transformation)
    (brs : List Response) (i : Nat) : Except PErr (List Response) × TxnWriteBuffer :=
  match ts, brs with
  | [], brs => (.ok brs, twb)
  | t :: tsRest, brs =>
    if t.index = i then
      if t.stripped then
        match toResp twb t .empty with
        | (.ok resp, twb1) =>
          match mergeRespLoop twb1 tsRest brs (i + 1) with
          | (.ok rest, twb2) => (.ok (resp :: rest), twb2)
          | err => err
        | (.error e, twb1) => (.error e, twb1)
      else
        match brs with
        | b :: brsRest =>
          match toResp twb t b with
          | (.ok resp, twb1) =>
            match mergeRespLoop twb1 tsRest brsRest (i + 1) with
            | (.ok rest, twb2) => (.ok (resp :: rest), twb2)
            | err => err
          | (.error e, twb1) => (.error e, twb1)
        | [] => (.error { kind := .assertionFailed, index := none, withTxn := false }, twb)
    else
      match brs with
      | b :: brsRest =>
        match mergeRespLoop twb (t :: tsRest) brsRest (i + 1) with
        | (.ok rest, twb2) => (.ok (b :: rest), twb2)
        | err => err
      | [] => (.error { kind := .assertionFailed, index := none, withTxn := false }, twb)
  termination_by ts.length + brs.length

/-- mergeResponseWithTransformations: with no transformations the server
response is returned as is. -/
def mergeResponseWithTransformations (twb : TxnWriteBuffer) (ts : List Transformation)
    (brs : List Response) : Except PErr (List Response) × TxnWriteBuffer :=
  if ts.isEmpty then (.ok brs, twb) else mergeRespLoop twb ts brs 0

/-- The adjustError walk: i ranges over the original batch positions, the
transformations are consumed in order of their recorded index, each stripped
one bumps numStripped, a non-stripped one hit during the walk is
log.Fatal-ed (modelled as none), and baIdx counts the forwarded requests
passed until it reaches the error index. On normal exit the error index is
shifted by numStripped. -/
def adjustErrorLoop : Nat → Nat → List Transformation → Nat → Nat → Nat → Option Nat
  | 0, _, _, numStripped, _, errIdx => some (errIdx + numStripped)
  | remaining + 1, i, ts, numStripped, baIdx, errIdx =>
    match ts with
    | t :: tsRest =>
      if t.index = i then
        if t.stripped then
          adjustErrorLoop remaining (i + 1) tsRest (numStripped + 1) baIdx errIdx
        else none
      else if baIdx = errIdx then some (errIdx + numStripped)
      else adjustErrorLoop remaining (i + 1) (t :: tsRest) numStripped (baIdx + 1) errIdx
    | [] =>
      if baIdx = errIdx then some (errIdx + numStripped)
      else adjustErrorLoop remaining (i + 1) [] numStripped (baIdx + 1) errIdx

/-- adjustError on the non-flush path: remap a downstream error index carried
against the forwarded batch back to the original batch; none models the
log.Fatal case. numOriginalRequests = len(ba.Requests) + len(ts) as in the
source (ba being the forwarded batch). An error without an index is
returned unchanged. -/
def adjustError (forwarded : List Request) (ts : List Transformation) (pErr : PErr) :
    Option PErr :=
  match pErr.index with
  | none => some pErr
  | some errIdx =>
    match adjustErrorLoop (forwarded.length + ts.length) 0 ts 0 0 errIdx with
    | some newIdx => some { pErr with index := some newIdx }
    | none => none

/-- adjustErrorUponFlush: an error index inside the flush prefix is nil-ed
out; otherwise it is shifted down by the number of flushed writes. -/
def adjustErrorUponFlush (numBuffered : Nat) (pErr : PErr) : PErr :=
  match pErr.index with
  | none => pErr
  | some i =>
    if i < numBuffered then { pErr with index := none }
    else { pErr with index := some (i - numBuffered) }

/-- bufferedWrite.toRequest: flush the most recent (highest sequence number)
buffered value for the key: a Put if it is present, a Delete if it is a
tombstone. vals is non-empty by invariant; the default is never reached. -/
def BufferedWrite.toRequest (bw : BufferedWrite) : Request :=
  let val := bw.vals.getLastD ⟨none, 0⟩
  match val.val with
  | some b => .put bw.key (some b) val.seq
  | none => .delete bw.key val.seq

/-- The wrapped lockedSender: a function from the forwarded batch to a batch
response or an error. -/
abbrev Sender := List Request → Except PErr (List Response)

/-- flushWithEndTxn: with an empty buffer the batch is forwarded untouched;
otherwise every buffered key is flushed as a put/delete prepended before the
caller's requests, the leading responses are stripped on success, and on
error the index is adjusted for the flush prefix. -/
def flushWithEndTxn (twb : TxnWriteBuffer) (ba : List Request) (send : Sender) :
    Except PErr (List Response) :=
  let numBuffered := twb.buffer.length
  if numBuffered = 0 then send ba
  else
    let reqs := twb.buffer.map BufferedWrite.toRequest ++ ba
    match send reqs with
    | .error pErr => .error (adjustErrorUponFlush numBuffered pErr)
    | .ok br => .ok (br.drop numBuffered)

/-- Whether the batch contains an EndTxn request (ba.GetArg(kvpb.EndTxn)). -/
def containsEndTxn (ba : List Request) : Bool :=
  ba.any (fun r => match r with | .endTxn _ => true | _ => false)

/-- The empty-forwarded-batch path of SendLocked: all requests were handled
locally, so a reply is synthesized from the transformations alone. -/
def localReply (twb : TxnWriteBuffer) (ts : List Transformation) :
    Except PErr (List Response) × TxnWriteBuffer :=
  match ts with
  | [] => (.ok [], twb)
  | t :: tsRest =>
    match toResp twb t .empty with
    | (.ok resp, twb1) =>
      match localReply twb1 tsRest with
      | (.ok rest, twb2) => (.ok (resp :: rest), twb2)
      | err => err
    | (.error e, twb1) => (.error e, twb1)

/-- SendLocked: disabled forwards verbatim; an EndTxn batch takes the flush
path; otherwise the batch is transformed, sent (unless empty), errors are
index-adjusted, and the response is merged with the transformations. The
returned TxnWriteBuffer is the interceptor state after the call. -/
def SendLocked (twb : TxnWriteBuffer) (ba : List Request) (send : Sender) :
    Except PErr (List Response) × TxnWriteBuffer :=
  if !twb.enabled then (send ba, twb)
  else if containsEndTxn ba then (flushWithEndTxn twb ba send, twb)
  else
    let st := applyTransformations twb ba
    if st.forwarded.isEmpty then localReply st.twb st.ts
    else
      match send st.forwarded with
      | .error pErr =>
        match adjustError st.forwarded st.ts pErr with
        | some e => (.error e, st.twb)
        | none => (.error { kind := .fatal, index := none, withTxn := false }, st.twb)
      | .ok br => mergeResponseWithTransformations st.twb st.ts br

/-- Leaf wire record ({id, key, vals} entry of LeafTxnInputState). -/
structure WireBufferedWrite where
  id : Nat
  key : Key
  vals : List BufferedValue
  deriving DecidableEq, Repr

/-- populateLeafInputState: serialize the buffer contents in key order; no
export when disabled or empty (the wire field stays unset, modelled as []). -/
def populateLeafInputState (twb : TxnWriteBuffer) : List WireBufferedWrite :=
  if !twb.enabled || twb.buffer.length = 0 then []
  else twb.buffer.map (fun bw => ⟨bw.id, bw.key, bw.vals⟩)

/-- initializeLeaf: with no incoming records the interceptor is disabled;
otherwise it is enabled and the records are installed verbatim via btree Set.
The id allocator is left unchanged. -/
def initializeLeaf (twb : TxnWriteBuffer) (wires : List WireBufferedWrite) :
    TxnWriteBuffer :=
  if wires.isEmpty then { twb with enabled := false }
  else
    { twb with
      enabled := true,
      buffer := wires.foldl (fun buf w => bufferSet buf ⟨w.id, w.key, w.vals⟩) twb.buffer }

/-- The buffered value history of a key (empty when the key has no record). -/
def bufferVals (buf : Buffer) (key : Key) : List BufferedValue :=
  match bufferLookup buf key with
  | some bw => bw.vals
  | none => []

/-! Lemmas about serving reads from the buffer. -/

theorem servedValRev_none {l : List BufferedValue} {seq : Nat}
    (h : servedValRev l seq = none) : ∀ bv ∈ l, seq < bv.seq := by
  induction l with
  | nil => intro bv hbv; cases hbv
  | cons bv0 rest ih =>
    intro bv hbv
    simp only [servedValRev] at h
    by_cases h0 : bv0.seq ≤ seq
    · rw [if_pos h0] at h; cases h
    · rw [if_neg h0] at h
      rcases List.mem_cons.mp hbv with hbv | hbv
      · subst hbv; omega
      · exact ih h bv hbv

theorem servedValRev_some {l : List BufferedValue} {seq : Nat} {v : Value}
    (hdesc : List.Pairwise (fun u w : BufferedValue => w.seq < u.seq) l)
    (h : servedValRev l seq = some v) :
    ∃ bv ∈ l, bv.seq ≤ seq ∧ bv.val = v ∧
      ∀ bv' ∈ l, bv'.seq ≤ seq → bv'.seq ≤ bv.seq := by
  induction l with
  | nil => simp [servedValRev] at h
  | cons bv0 rest ih =>
    simp only [servedValRev] at h
    by_cases h0 : bv0.seq ≤ seq
    · rw [if_pos h0] at h
      refine ⟨bv0, List.mem_cons_self _ _, h0, by injection h, ?_⟩
      intro bv' hbv' _
      rcases List.mem_cons.mp hbv' with h' | h'
      · subst h'; exact Nat.le_refl _
      · exact Nat.le_of_lt (List.rel_of_pairwise_cons hdesc h')
    · rw [if_neg h0] at h
      obtain ⟨bv, hmem, hle, hval, hgr⟩ := ih hdesc.of_cons h
      refine ⟨bv, List.mem_cons_of_mem _ hmem, hle, hval, ?_⟩
      intro bv' hbv' hle'
      rcases List.mem_cons.mp hbv' with h' | h'
      · subst h'; omega
      · exact hgr bv' h' hle'

/-- With vals strictly ascending in seq, a served value is the buffered value
with the greatest sequence number at most the read sequence number. -/
theorem servedVal_greatest {vals : List BufferedValue} {seq : Nat} {v : Value}
    (hasc : List.Pairwise (fun u w : BufferedValue => u.seq < w.seq) vals)
    (h : servedVal vals seq = some v) :
    ∃ bv ∈ vals, bv.seq ≤ seq ∧ bv.val = v ∧
      ∀ bv' ∈ vals, bv'.seq ≤ seq → bv'.seq ≤ bv.seq := by
  unfold servedVal at h
  have hdesc : List.Pairwise (fun u w : BufferedValue => w.seq < u.seq) vals.reverse := by
    rw [List.pairwise_reverse]
    exact hasc
  obtain ⟨bv, hmem, hle, hval, hgr⟩ := servedValRev_some hdesc h
  refine ⟨bv, List.mem_reverse.mp hmem, hle, hval, ?_⟩
  intro bv' hbv' hle'
  exact hgr bv' (List.mem_reverse.mpr hbv') hle'

theorem bufferLookup_mem {buf : Buffer} {key : Key} {bw : BufferedWrite}
    (h : bufferLookup buf key = some bw) : bw ∈ buf ∧ bw.key = key := by
  unfold bufferLookup at h
  refine ⟨List.mem_of_find?_eq_some h, ?_⟩
  have := List.find?_some h
  exact keyCmp_eq_iff.mp (by simpa using this)

/-! Lemmas about addToBuffer. -/

theorem bufferLookup_cons_pos {b : BufferedWrite} {rest : Buffer} {key : Key}
    (hb : keyCmp b.key key = .eq) : bufferLookup (b :: rest) key = some b := by
  unfold bufferLookup
  exact List.find?_cons_of_pos _ (by simp [hb])

theorem bufferLookup_cons_neg {b : BufferedWrite} {rest : Buffer} {key : Key}
    (hb : ¬ keyCmp b.key key = .eq) :
    bufferLookup (b :: rest) key = bufferLookup rest key := by
  unfold bufferLookup
  exact List.find?_cons_of_neg _ (by simp [hb])

theorem bufferLookup_appendVal_same {buf : Buffer} {key : Key} {bw : BufferedWrite}
    (bv : BufferedValue) (h : bufferLookup buf key = some bw) :
    bufferLookup (bufferAppendVal buf key bv) key =
      some { bw with vals := bw.vals ++ [bv] } := by
  induction buf with
  | nil => simp [bufferLookup, List.find?] at h
  | cons b rest ih =>
    by_cases hb : keyCmp b.key key = .eq
    · rw [bufferLookup_cons_pos hb] at h
      injection h with h
      subst h
      simp only [bufferAppendVal, if_pos hb]
      exact bufferLookup_cons_pos hb
    · rw [bufferLookup_cons_neg hb] at h
      simp only [bufferAppendVal, if_neg hb]
      rw [bufferLookup_cons_neg hb]
      exact ih h

theorem bufferLookup_appendVal_other {buf : Buffer} {key k : Key}
    (bv : BufferedValue) (hne : k ≠ key) :
    bufferLookup (bufferAppendVal buf key bv) k = bufferLookup buf k := by
  induction buf with
  | nil => rfl
  | cons b rest ih =>
    by_cases hb : keyCmp b.key key = .eq
    · have hbk : b.key = key := keyCmp_eq_iff.mp hb
      have hnk : ¬ keyCmp b.key k = .eq := by
        intro hcon
        exact hne ((keyCmp_eq_iff.mp hcon).symm.trans hbk)
      simp only [bufferAppendVal, if_pos hb]
      rw [bufferLookup_cons_neg (b := { b with vals := b.vals ++ [bv] }) hnk,
        bufferLookup_cons_neg hnk]
    · simp only [bufferAppendVal, if_neg hb]
      by_cases hk : keyCmp b.key k = .eq
      · rw [bufferLookup_cons_pos hk, bufferLookup_cons_pos hk]
      · rw [bufferLookup_cons_neg hk, bufferLookup_cons_neg hk]
        exact ih

theorem bufferLookup_set_same {buf : Buffer} {bw : BufferedWrite}
    (h : bufferLookup buf bw.key = none) :
    bufferLookup (bufferSet buf bw) bw.key = some bw := by
  induction buf with
  | nil => exact bufferLookup_cons_pos (keyCmp_self _)
  | cons b rest ih =>
    by_cases hb : keyCmp b.key bw.key = .eq
    · rw [bufferLookup_cons_pos hb] at h
      cases h
    · rw [bufferLookup_cons_neg hb] at h
      rcases hc : keyCmp bw.key b.key with _ | _ | _
      · simp only [bufferSet, hc]
        exact bufferLookup_cons_pos (keyCmp_self _)
      · have hbe : bw.key = b.key := keyCmp_eq_iff.mp hc
        exact absurd (keyCmp_eq_iff.mpr hbe.symm) hb
      · simp only [bufferSet, hc]
        rw [bufferLookup_cons_neg hb]
        exact ih h

theorem bufferLookup_set_other {buf : Buffer} {bw : BufferedWrite} {k : Key}
    (hne : k ≠ bw.key) :
    bufferLookup (bufferSet buf bw) k = bufferLookup buf k := by
  have hnk : ¬ keyCmp bw.key k = .eq := by
    intro hcon
    exact hne (keyCmp_eq_iff.mp hcon).symm
  induction buf with
  | nil => simp [bufferSet]; exact bufferLookup_cons_neg hnk
  | cons b rest ih =>
    rcases hb : keyCmp bw.key b.key with _ | _ | _
    · simp only [bufferSet, hb]
      rw [bufferLookup_cons_neg hnk]
    · have hbe : bw.key = b.key := keyCmp_eq_iff.mp hb
      have hnb : ¬ keyCmp b.key k = .eq := by
        rw [← hbe]; exact hnk
      simp only [bufferSet, hb]
      rw [bufferLookup_cons_neg hnk, bufferLookup_cons_neg hnb]
    · by_cases hk : keyCmp b.key k = .eq
      · simp only [bufferSet, hb]
        rw [bufferLookup_cons_pos hk, bufferLookup_cons_pos hk]
      · simp only [bufferSet, hb]
        rw [bufferLookup_cons_neg hk, bufferLookup_cons_neg hk]
        exact ih

/-- addToBuffer appends (value, seq) to the key's history and touches no
other key. -/
theorem addToBuffer_vals (twb : TxnWriteBuffer) (key : Key) (val : Value) (seq : Nat) :
    bufferVals (addToBuffer twb key val seq).buffer key =
      bufferVals twb.buffer key ++ [⟨val, seq⟩] := by
  unfold addToBuffer
  rcases hl : bufferLookup twb.buffer key with _ | bw
  · simp only [hl, Option.isSome_none, Bool.false_eq_true, if_false]
    unfold bufferVals
    rw [show key = (⟨twb.bufferIDAlloc + 1, key, [⟨val, seq⟩]⟩ : BufferedWrite).key from rfl]
      at hl ⊢
    rw [bufferLookup_set_same hl]
    simp [hl, bufferVals]
  · simp only [hl, Option.isSome_some, if_true]
    unfold bufferVals
    rw [bufferLookup_appendVal_same ⟨val, seq⟩ hl, hl]

theorem addToBuffer_vals_other (twb : TxnWriteBuffer) (key k : Key) (val : Value)
    (seq : Nat) (hne : k ≠ key) :
    bufferVals (addToBuffer twb key val seq).buffer k = bufferVals twb.buffer k := by
  unfold addToBuffer
  rcases hl : bufferLookup twb.buffer key with _ | bw
  · simp only [hl, Option.isSome_none, Bool.false_eq_true, if_false]
    unfold bufferVals
    rw [bufferLookup_set_other hne]
  · simp only [hl, Option.isSome_some, if_true]
    unfold bufferVals
    rw [bufferLookup_appendVal_other ⟨val, seq⟩ hne]

/-- C4: a ConditionalPut at index i records a non-stripped transformation at
index i and is replaced, in place in the forwarded batch, by a Get on the same
key at the same sequence number with exclusive locking strength and
lockNonExisting equal to (expectedBytes is empty) OR allowIfDoesNotExist. -/
theorem claim_C4 (st : TransformState) (i : Nat) (key : Key) (value : Value)
    (expBytes : Bytes) (allow : Bool) (seq : Nat) :
    ∃ lockNE : Bool,
      applyOne st i (.cput key value expBytes allow seq) =
        { st with
          ts := st.ts ++
            [⟨false, i, Request.cput key value expBytes allow seq, Response.empty⟩],
          forwarded := st.forwarded ++ [.get key seq .exclusive lockNE] } ∧
      (lockNE = true ↔ expBytes = [] ∨ allow = true) := by
  refine ⟨expBytes.isEmpty || allow, rfl, ?_⟩
  simp [List.isEmpty_iff]

/-- C7: a Put at index i is stripped from the forwarded batch, recorded with a
synthesized empty put response at index i, and (key, value, seq) is appended
to the buffered history of its key; a Delete is handled the same way except
the buffered value is the tombstone form and the synthesized delete response
reports foundKey = false. The history of every other key is untouched. -/
theorem claim_C7 (st : TransformState) (i : Nat) (key : Key) (value : Value) (seq : Nat) :
    (applyOne st i (.put key value seq) =
      { st with
        twb := addToBuffer st.twb key value seq,
        ts := st.ts ++ [⟨true, i, Request.put key value seq, Response.put⟩] }) ∧
    (applyOne st i (.delete key seq) =
      { st with
        twb := addToBuffer st.twb key none seq,
        ts := st.ts ++ [⟨true, i, Request.delete key seq, Response.delete false⟩] }) ∧
    (∀ val : Value,
      bufferVals (addToBuffer st.twb key val seq).buffer key =
        bufferVals st.twb.buffer key ++ [⟨val, seq⟩] ∧
      ∀ k, k ≠ key →
        bufferVals (addToBuffer st.twb key val seq).buffer k =
          bufferVals st.twb.buffer k) :=
  ⟨rfl, rfl, fun val =>
    ⟨addToBuffer_vals _ _ _ _, fun k hk => addToBuffer_vals_other _ _ _ _ _ hk⟩⟩

theorem claim_C7_witness :
    (([2] : Key) ≠ [1]) ∧
    bufferVals (addToBuffer ⟨true, [], 0⟩ [1] (some [9]) 4).buffer [2] =
      bufferVals (⟨true, [], 0⟩ : TxnWriteBuffer).buffer [2] :=
  ⟨by decide,
    ((claim_C7 ⟨⟨true, [], 0⟩, [], []⟩ 0 [1] (some [9]) 4).2.2 (some [9])).2 [2] (by decide)⟩

/-- C2: a Get at sequence number seq on a key with a buffered write visible at
seq is answered from the buffer with the value of greatest seq at most the
request sequence number; if the Get is non-locking it is stripped from the
forwarded batch, and if it is locking it stays in the forwarded batch while
the buffered value is still recorded as its response. Without a visible
buffered value the Get is forwarded unchanged with no transformation. -/
theorem claim_C2 (st : TransformState) (i : Nat) (key : Key) (seq : Nat)
    (strength : LockStrength) (lockNE : Bool) :
    (∀ val, maybeServeRead st.twb.buffer key seq = some val →
      (strength = LockStrength.none →
        applyOne st i (.get key seq strength lockNE) =
          { st with
            ts := st.ts ++
              [⟨true, i, Request.get key seq strength lockNE, Response.get val⟩] }) ∧
      (strength ≠ LockStrength.none →
        applyOne st i (.get key seq strength lockNE) =
          { st with
            forwarded := st.forwarded ++ [.get key seq strength lockNE],
            ts := st.ts ++
              [⟨false, i, Request.get key seq strength lockNE, Response.get val⟩] }) ∧
      (BufferWF st.twb.buffer →
        ∃ bw, bufferLookup st.twb.buffer key = some bw ∧
          ∃ bv ∈ bw.vals, bv.seq ≤ seq ∧ bv.val = val ∧
            ∀ bv' ∈ bw.vals, bv'.seq ≤ seq → bv'.seq ≤ bv.seq)) ∧
    (maybeServeRead st.twb.buffer key seq = none →
      applyOne st i (.get key seq strength lockNE) =
        { st with forwarded := st.forwarded ++ [.get key seq strength lockNE] }) := by
  constructor
  · intro val hserved
    refine ⟨?_, ?_, ?_⟩
    · intro hs
      subst hs
      simp [applyOne, hserved]
    · intro hs
      simp [applyOne, hserved, hs]
    · intro hwf
      unfold maybeServeRead at hserved
      rcases hl : bufferLookup st.twb.buffer key with _ | bw
      · rw [hl] at hserved; cases hserved
      · rw [hl] at hserved
        obtain ⟨hmem, _⟩ := bufferLookup_mem hl
        exact ⟨bw, rfl, servedVal_greatest ((hwf.2 bw hmem).2) hserved⟩
  · intro hnone
    simp [applyOne, hnone]

theorem claim_C2_witness :
    maybeServeRead (⟨true, [⟨1, [1], [⟨some [9], 4⟩]⟩], 1⟩ : TxnWriteBuffer).buffer [1] 5 =
      some (some [9]) ∧
    applyOne ⟨⟨true, [⟨1, [1], [⟨some [9], 4⟩]⟩], 1⟩, [], []⟩ 0
        (.get [1] 5 .none false) =
      { twb := ⟨true, [⟨1, [1], [⟨some [9], 4⟩]⟩], 1⟩, forwarded := [],
        ts := [⟨true, 0, Request.get [1] 5 .none false, Response.get (some [9])⟩] } :=
  ⟨by decide,
    (((claim_C2 ⟨⟨true, [⟨1, [1], [⟨some [9], 4⟩]⟩], 1⟩, [], []⟩ 0 [1] 5 .none false).1
      (some [9]) (by decide)).1 rfl)⟩

/-- C10: when the batch carries an EndTxn and the buffer is empty, SendLocked
forwards the batch to the wrapped sender completely unchanged and returns its
result verbatim: nothing is prepended, no responses are stripped, and no
error-index adjustment happens. -/
theorem claim_C10 (twb : TxnWriteBuffer) (ba : List Request) (send : Sender)
    (henabled : twb.enabled = true) (hend : containsEndTxn ba = true)
    (hempty : twb.buffer = []) :
    SendLocked twb ba send = (send ba, twb) := by
  unfold SendLocked flushWithEndTxn
  simp [henabled, hend, hempty]

theorem claim_C10_witness :
    (⟨true, [], 0⟩ : TxnWriteBuffer).enabled = true ∧
    containsEndTxn [Request.endTxn true] = true ∧
    SendLocked ⟨true, [], 0⟩ [Request.endTxn true]
        (fun reqs => .ok (reqs.map (fun _ => Response.other))) =
      ((fun (reqs : List Request) => Except.ok (reqs.map (fun _ => Response.other)))
          [Request.endTxn true], ⟨true, [], 0⟩) :=
  ⟨rfl, rfl, claim_C10 ⟨true, [], 0⟩ [Request.endTxn true] _ rfl rfl rfl⟩

/-- The key a single-key request targets (for stating flush ordering). -/
def reqKey : Request → Key
  | .put k _ _ => k
  | .delete k _ => k
  | .cput k _ _ _ _ => k
  | .get k _ _ _ => k
  | .scan k _ _ => k
  | .reverseScan k _ _ => k
  | _ => []

theorem reqKey_toRequest (bw : BufferedWrite) : reqKey bw.toRequest = bw.key := by
  have hsplit : bw.toRequest =
      (match (bw.vals.getLastD ⟨none, 0⟩).val with
        | some b => Request.put bw.key (some b) (bw.vals.getLastD ⟨none, 0⟩).seq
        | none => Request.delete bw.key (bw.vals.getLastD ⟨none, 0⟩).seq) := rfl
  rw [hsplit]
  cases hv : (bw.vals.getLastD ⟨none, 0⟩).val <;> rfl

theorem getLastD_greatest {vals : List BufferedValue} (d : BufferedValue)
    (hasc : List.Pairwise (fun u w : BufferedValue => u.seq < w.seq) vals)
    (hne : vals ≠ []) :
    vals.getLastD d ∈ vals ∧ ∀ bv ∈ vals, bv.seq ≤ (vals.getLastD d).seq := by
  induction vals generalizing d with
  | nil => exact absurd rfl hne
  | cons v rest ih =>
    cases rest with
    | nil =>
      refine ⟨List.mem_singleton.mpr rfl, ?_⟩
      intro bv hbv
      rw [List.mem_singleton.mp hbv]
      exact Nat.le_refl _
    | cons w rest2 =>
      have hstep : (v :: w :: rest2).getLastD d = (w :: rest2).getLastD v := rfl
      obtain ⟨hmem, hbound⟩ := ih v hasc.of_cons (by simp)
      rw [hstep]
      refine ⟨List.mem_cons_of_mem _ hmem, ?_⟩
      intro bv hbv
      rcases List.mem_cons.mp hbv with h | h
      · subst h
        exact Nat.le_of_lt
          (Nat.lt_of_lt_of_le (List.rel_of_pairwise_cons hasc hmem) (Nat.le_refl _))
      · exact hbound bv h

/-- C3: when the batch carries an EndTxn and the buffer holds N keys, the
forwarded batch is exactly the N buffered keys as put/delete requests in
ascending key order (each carrying the highest-seq buffered value for its key,
a Put when that value is present and a Delete when it is a tombstone),
prepended before the caller's requests; on success the leading N responses are
stripped before the batch response is returned. -/
theorem claim_C3 (twb : TxnWriteBuffer) (ba : List Request) (send : Sender)
    (henabled : twb.enabled = true) (hend : containsEndTxn ba = true)
    (hwf : BufferWF twb.buffer) (hne : twb.buffer ≠ []) :
    (SendLocked twb ba send =
      (match send (twb.buffer.map BufferedWrite.toRequest ++ ba) with
       | .ok br => .ok (br.drop twb.buffer.length)
       | .error pErr => .error (adjustErrorUponFlush twb.buffer.length pErr), twb)) ∧
    (twb.buffer.map BufferedWrite.toRequest).length = twb.buffer.length ∧
    List.Pairwise (fun r1 r2 => keyLt (reqKey r1) (reqKey r2))
      (twb.buffer.map BufferedWrite.toRequest) ∧
    (∀ bw ∈ twb.buffer, ∃ bv ∈ bw.vals,
      (∀ bv' ∈ bw.vals, bv'.seq ≤ bv.seq) ∧
      BufferedWrite.toRequest bw =
        (match bv.val with
         | some b => Request.put bw.key (some b) bv.seq
         | none => Request.delete bw.key bv.seq)) := by
  refine ⟨?_, List.length_map _ _, ?_, ?_⟩
  · unfold SendLocked flushWithEndTxn
    have hlen : twb.buffer.length ≠ 0 := by
      simpa [List.length_eq_zero] using hne
    simp only [henabled, Bool.not_true, Bool.false_eq_true, if_false, hend, if_true, hlen]
    cases send (List.map BufferedWrite.toRequest twb.buffer ++ ba) <;> rfl
  · have hkeys := hwf.1
    rw [List.pairwise_map]
    refine hkeys.imp_of_mem ?_
    intro bw1 bw2 h1 h2 hlt
    rw [reqKey_toRequest, reqKey_toRequest]
    exact hlt
  · intro bw hbw
    obtain ⟨hvne, hvasc⟩ := hwf.2 bw hbw
    obtain ⟨hmem, hbound⟩ := getLastD_greatest ⟨none, 0⟩ hvasc hvne
    exact ⟨bw.vals.getLastD ⟨none, 0⟩, hmem, hbound, rfl⟩

theorem claim_C3_witness :
    (⟨true, [⟨1, [1], [⟨some [7], 2⟩]⟩], 1⟩ : TxnWriteBuffer).enabled = true ∧
    containsEndTxn [Request.endTxn true] = true ∧
    BufferWF [⟨1, [1], [⟨some [7], 2⟩]⟩] ∧
    ([⟨1, [1], [⟨some [7], 2⟩]⟩] : Buffer) ≠ [] ∧
    SendLocked ⟨true, [⟨1, [1], [⟨some [7], 2⟩]⟩], 1⟩ [Request.endTxn true]
        (fun reqs => .ok (reqs.map (fun _ => Response.other))) =
      (match (fun (reqs : List Request) =>
          Except.ok (ε := PErr) (reqs.map (fun _ => Response.other)))
          (([⟨1, [1], [⟨some [7], 2⟩]⟩] : Buffer).map BufferedWrite.toRequest ++
            [Request.endTxn true]) with
       | .ok br => .ok (br.drop ([⟨1, [1], [⟨some [7], 2⟩]⟩] : Buffer).length)
       | .error pErr =>
         .error (adjustErrorUponFlush ([⟨1, [1], [⟨some [7], 2⟩]⟩] : Buffer).length pErr),
       ⟨true, [⟨1, [1], [⟨some [7], 2⟩]⟩], 1⟩) :=
  ⟨rfl, rfl, by decide, by decide,
    (claim_C3 ⟨true, [⟨1, [1], [⟨some [7], 2⟩]⟩], 1⟩ [Request.endTxn true] _
      rfl rfl (by decide) (by decide)).1⟩

/-- C5: merging the get response of a decomposed ConditionalPut evaluates the
condition under the rule that a missing value matches iff allowIfDoesNotExist;
on failure the result is a condition-failed error attached to the transaction
with error index equal to the conditional put's original batch index and the
buffer is left unchanged; on success (key, value, seq) is buffered and a
synthesized conditional-put response is emitted. -/
theorem claim_C5 (twb : TxnWriteBuffer) (i : Nat) (key : Key) (value : Value)
    (expBytes : Bytes) (allow : Bool) (seq : Nat) (getVal : Value) :
    (maybeConditionFailedError expBytes getVal allow = true →
      toResp twb ⟨false, i, Request.cput key value expBytes allow seq, Response.empty⟩
          (.get getVal) =
        (.error ⟨.condFailed getVal, some i, true⟩, twb)) ∧
    (maybeConditionFailedError expBytes getVal allow = false →
      toResp twb ⟨false, i, Request.cput key value expBytes allow seq, Response.empty⟩
          (.get getVal) =
        (.ok .cput, addToBuffer twb key value seq)) ∧
    (maybeConditionFailedError expBytes getVal allow = false ↔
      (match getVal with
       | some b => b = expBytes
       | none => allow = true)) := by
  refine ⟨?_, ?_, ?_⟩
  · intro hfail
    simp [toResp, hfail]
  · intro hok
    simp [toResp, hok]
  · unfold maybeConditionFailedError
    rcases getVal with _ | b
    · simp
    · simp

theorem claim_C5_witness :
    maybeConditionFailedError [111] (some [99]) false = true ∧
    toResp ⟨true, [], 0⟩
        ⟨false, 0, Request.cput [107] (some [118]) [111] false 1, Response.empty⟩
        (.get (some [99])) =
      (.error ⟨.condFailed (some [99]), some 0, true⟩, (⟨true, [], 0⟩ : TxnWriteBuffer)) :=
  ⟨by decide,
    (claim_C5 ⟨true, [], 0⟩ 0 [107] (some [118]) [111] false 1 (some [99])).1 (by decide)⟩

/-- C8: the source enforces no byte budget at all: addToBuffer buffers every
write unconditionally, so for any candidate budget B a single buffered write
with a key of length B+1 drives the buffer's total size past B while the
write still lands in the buffer (nothing is flushed or forwarded instead). -/
theorem claim_C8 (B : Nat) :
    B < bufferSize (addToBuffer ⟨true, [], 0⟩ (List.replicate (B + 1) 0) none 1).buffer ∧
    bufferVals (addToBuffer ⟨true, [], 0⟩ (List.replicate (B + 1) 0) none 1).buffer
        (List.replicate (B + 1) 0) = [⟨none, 1⟩] := by
  constructor
  · simp [addToBuffer, bufferLookup, bufferSet, bufferSize, valueLen]
  · rw [addToBuffer_vals ⟨true, [], 0⟩ (List.replicate (B + 1) 0) none 1]
    rfl

/-! Lemmas for the leaf round-trip. -/

theorem bufferSet_append_gt {buf : Buffer} {bw : BufferedWrite}
    (h : ∀ b ∈ buf, keyLt b.key bw.key) : bufferSet buf bw = buf ++ [bw] := by
  induction buf with
  | nil => rfl
  | cons b rest ih =>
    have hb : keyLt b.key bw.key := h b (List.mem_cons_self _ _)
    have hgt : keyCmp bw.key b.key = .gt := keyCmp_gt_iff.mpr hb
    simp only [bufferSet, hgt]
    rw [ih (fun x hx => h x (List.mem_cons_of_mem _ hx))]
    rfl

theorem foldl_bufferSet_sorted (l : List BufferedWrite) (buf : Buffer)
    (hl : List.Pairwise (fun a b : BufferedWrite => keyLt a.key b.key) l)
    (hcross : ∀ b ∈ buf, ∀ w ∈ l, keyLt b.key w.key) :
    l.foldl (fun acc w => bufferSet acc w) buf = buf ++ l := by
  induction l generalizing buf with
  | nil => simp
  | cons w rest ih =>
    have hstep : bufferSet buf w = buf ++ [w] :=
      bufferSet_append_gt (fun b hb => hcross b hb w (List.mem_cons_self _ _))
    simp only [List.foldl_cons, hstep]
    rw [ih (buf ++ [w]) hl.of_cons]
    · simp
    · intro b hb r hr
      rcases List.mem_append.mp hb with hb | hb
      · exact hcross b hb r (List.mem_cons_of_mem _ hr)
      · rw [List.mem_singleton.mp hb]
        exact List.rel_of_pairwise_cons hl hr

/-- C9: exporting a non-empty buffer with populateLeafInputState and importing
it with initializeLeaf on a fresh leaf interceptor reproduces the buffer
exactly — same records, same identifiers — enables the leaf, and leaves the
leaf's id allocator at its initial value. -/
theorem claim_C9 (twb : TxnWriteBuffer) (e0 : Bool)
    (henabled : twb.enabled = true) (hne : twb.buffer ≠ [])
    (hsorted : List.Pairwise (fun a b : BufferedWrite => keyLt a.key b.key) twb.buffer) :
    initializeLeaf ⟨e0, [], 0⟩ (populateLeafInputState twb) =
      ⟨true, twb.buffer, 0⟩ := by
  have hlen : twb.buffer.length ≠ 0 := by
    simpa [List.length_eq_zero] using hne
  have hwires : populateLeafInputState twb =
      twb.buffer.map (fun bw => ⟨bw.id, bw.key, bw.vals⟩) := by
    unfold populateLeafInputState
    simp [henabled, hlen]
  rw [hwires]
  unfold initializeLeaf
  have hmapne : ¬ (twb.buffer.map
      (fun bw => (⟨bw.id, bw.key, bw.vals⟩ : WireBufferedWrite))).isEmpty = true := by
    cases hb : twb.buffer with
    | nil => exact absurd hb hne
    | cons x xs => simp [hb]
  rw [if_neg hmapne]
  have hfold : (twb.buffer.map (fun bw => (⟨bw.id, bw.key, bw.vals⟩ : WireBufferedWrite))).foldl
      (fun buf w => bufferSet buf ⟨w.id, w.key, w.vals⟩) ([] : Buffer) = twb.buffer := by
    rw [List.foldl_map]
    have hid : ∀ bw : BufferedWrite,
        (⟨bw.id, bw.key, bw.vals⟩ : BufferedWrite) = bw := fun bw => rfl
    calc twb.buffer.foldl (fun acc bw => bufferSet acc ⟨bw.id, bw.key, bw.vals⟩) []
        = twb.buffer.foldl (fun acc bw => bufferSet acc bw) [] := by
          congr 1
      _ = [] ++ twb.buffer := foldl_bufferSet_sorted _ _ hsorted (fun b hb => absurd hb (by simp))
      _ = twb.buffer := by simp
  simp only [hfold]

/-! Lemmas for error-index remapping (adjustError). -/

/-- The original-batch indices in [i, n) that carry no transformation,
in ascending order. -/
def nonTsIn (i n : Nat) (ts : List Transformation) : List Nat :=
  (List.range' i (n - i)).filter (fun x => !(ts.any (fun t => decide (t.index = x))))

/-- The original-batch indices of requests that were not transformed at all. -/
def origIndices (n : Nat) (ts : List Transformation) : List Nat := nonTsIn 0 n ts

/-- The original-batch indices of the requests present in the forwarded batch
(everything not stripped), in ascending order: position j of the forwarded
batch holds the request with original index (forwardedOrigIndices n ts)[j]. -/
def forwardedOrigIndices (n : Nat) (ts : List Transformation) : List Nat :=
  (List.range n).filter (fun x => !(ts.any (fun t => t.stripped && decide (t.index = x))))

theorem range'_cons_of_lt {i n : Nat} (h : i < n) :
    List.range' i (n - i) = i :: List.range' (i + 1) (n - (i + 1)) := by
  have hn : n - i = (n - (i + 1)) + 1 := by omega
  rw [hn]
  rw [List.range'_succ]

theorem nonTsIn_drop_head {i n : Nat} {t : Transformation} {rest : List Transformation}
    (hti : t.index = i)
    (hrest : ∀ t' ∈ rest, i + 1 ≤ t'.index) :
    nonTsIn i n (t :: rest) = nonTsIn (i + 1) n rest := by
  unfold nonTsIn
  by_cases hin : i < n
  · rw [range'_cons_of_lt hin]
    rw [List.filter_cons]
    have hhead : (((t :: rest).any (fun u => decide (u.index = i)))) = true := by
      simp [List.any_eq_true]
      exact Or.inl hti
    rw [hhead]
    simp only [Bool.not_true, Bool.false_eq_true, if_false]
    apply List.filter_congr
    intro x hx
    obtain ⟨m, hmlt, hxeq⟩ := List.mem_range'.mp hx
    have hxne : ¬ t.index = x := by omega
    simp [hxne]
  · have h1 : n - i = 0 := by omega
    have h2 : n - (i + 1) = 0 := by omega
    rw [h1, h2]
    rfl

theorem nonTsIn_cons_head {i n : Nat} {ts : List Transformation}
    (hin : i < n) (hnone : ∀ t ∈ ts, t.index ≠ i) :
    nonTsIn i n ts = i :: nonTsIn (i + 1) n ts := by
  unfold nonTsIn
  rw [range'_cons_of_lt hin]
  rw [List.filter_cons]
  have hhead : ((ts.any (fun u => decide (u.index = i)))) = false := by
    rw [List.any_eq_false]
    intro u hu
    simpa using hnone u hu
  rw [hhead]
  rfl

theorem ts_tail_ge {i : Nat} {t : Transformation} {rest : List Transformation}
    (hsort : List.Pairwise (fun a b : Transformation => a.index < b.index) (t :: rest))
    (hge : i ≤ t.index) : ∀ t' ∈ rest, i + 1 ≤ t'.index := by
  intro t' ht'
  have := List.rel_of_pairwise_cons hsort ht'
  omega

theorem ts_no_index_at {i : Nat} {t : Transformation} {rest : List Transformation}
    (hsort : List.Pairwise (fun a b : Transformation => a.index < b.index) (t :: rest))
    (hge : ∀ u ∈ t :: rest, i ≤ u.index) (hti : t.index ≠ i) :
    ∀ u ∈ t :: rest, u.index ≠ i := by
  intro u hu
  rcases List.mem_cons.mp hu with h | h
  · subst h; exact hti
  · have h1 := List.rel_of_pairwise_cons hsort h
    have h2 := hge t (List.mem_cons_self _ _)
    omega

theorem nonTsIn_getElem : ∀ (k i n : Nat) (ts : List Transformation) (j o : Nat),
    n - i = k →
    List.Pairwise (fun a b : Transformation => a.index < b.index) ts →
    (∀ t ∈ ts, i ≤ t.index ∧ t.index < n) →
    (nonTsIn i n ts)[j]? = some o →
    o = i + j + (ts.filter (fun t => decide (t.index < o))).length ∧ i ≤ o := by
  intro k
  induction k with
  | zero =>
    intro i n ts j o hk _ _ hj
    have : nonTsIn i n ts = [] := by
      unfold nonTsIn
      rw [hk]
      rfl
    rw [this] at hj
    simp at hj
  | succ k ih =>
    intro i n ts j o hk hsort hrange hj
    have hin : i < n := by omega
    match ts with
    | t :: rest =>
      by_cases hti : t.index = i
      · have hrest := ts_tail_ge hsort (hrange t (List.mem_cons_self _ _)).1
        rw [nonTsIn_drop_head hti hrest] at hj
        obtain ⟨ho, hge⟩ := ih (i + 1) n rest j o (by omega) hsort.of_cons
          (fun u hu => ⟨hrest u hu, (hrange u (List.mem_cons_of_mem _ hu)).2⟩) hj
        have hlt : t.index < o := by omega
        rw [List.filter_cons, if_pos (by simpa using hlt)]
        constructor
        · simp only [List.length_cons]
          omega
        · omega
      · have hnone := ts_no_index_at hsort (fun u hu => (hrange u hu).1) hti
        rw [nonTsIn_cons_head hin hnone] at hj
        have hrange2 : ∀ u ∈ t :: rest, i + 1 ≤ u.index ∧ u.index < n := by
          intro u hu
          refine ⟨?_, (hrange u hu).2⟩
          rcases List.mem_cons.mp hu with h | h
          · rw [h]
            have h0 := (hrange t (List.mem_cons_self _ _)).1
            have h1 := hnone t (List.mem_cons_self _ _)
            omega
          · exact ts_tail_ge hsort (hrange t (List.mem_cons_self _ _)).1 u h
        match j with
        | 0 =>
          simp only [List.getElem?_cons_zero] at hj
          injection hj with hj
          subst hj
          have hcount : ((t :: rest).filter
              (fun u => decide (u.index < i))) = [] := by
            rw [List.filter_eq_nil_iff]
            intro u hu
            have := (hrange u hu).1
            simp only [decide_eq_true_eq]
            omega
          rw [hcount]
          simp
        | j' + 1 =>
          simp only [List.getElem?_cons_succ] at hj
          obtain ⟨ho, hge⟩ := ih (i + 1) n (t :: rest) j' o (by omega) hsort hrange2 hj
          exact ⟨by omega, by omega⟩
    | [] =>
      rw [nonTsIn_cons_head hin (by intro u hu; cases hu)] at hj
      match j with
      | 0 =>
        simp only [List.getElem?_cons_zero] at hj
        injection hj with hj
        subst hj
        simp
      | j' + 1 =>
        simp only [List.getElem?_cons_succ] at hj
        obtain ⟨ho, hge⟩ := ih (i + 1) n [] j' o (by omega) hsort (by intro u hu; cases hu) hj
        exact ⟨by omega, by omega⟩

theorem nonTsIn_length : ∀ (k i n : Nat) (ts : List Transformation),
    n - i = k →
    List.Pairwise (fun a b : Transformation => a.index < b.index) ts →
    (∀ t ∈ ts, i ≤ t.index ∧ t.index < n) →
    ts.length ≤ n - i ∧ (nonTsIn i n ts).length = (n - i) - ts.length := by
  intro k
  induction k with
  | zero =>
    intro i n ts hk hsort hrange
    match ts with
    | [] =>
      have : nonTsIn i n [] = [] := by
        unfold nonTsIn
        rw [hk]
        rfl
      rw [this]
      simp
      omega
    | t :: rest =>
      have := hrange t (List.mem_cons_self _ _)
      omega
  | succ k ih =>
    intro i n ts hk hsort hrange
    have hin : i < n := by omega
    match ts with
    | t :: rest =>
      by_cases hti : t.index = i
      · have hrest := ts_tail_ge hsort (hrange t (List.mem_cons_self _ _)).1
        rw [nonTsIn_drop_head hti hrest]
        obtain ⟨hle, hlen⟩ := ih (i + 1) n rest (by omega) hsort.of_cons
          (fun u hu => ⟨hrest u hu, (hrange u (List.mem_cons_of_mem _ hu)).2⟩)
        constructor
        · simp only [List.length_cons]
          omega
        · rw [hlen]
          simp only [List.length_cons]
          omega
      · have hnone := ts_no_index_at hsort (fun u hu => (hrange u hu).1) hti
        have hrange2 : ∀ u ∈ t :: rest, i + 1 ≤ u.index ∧ u.index < n := by
          intro u hu
          refine ⟨?_, (hrange u hu).2⟩
          rcases List.mem_cons.mp hu with h | h
          · rw [h]
            have h0 := (hrange t (List.mem_cons_self _ _)).1
            have h1 := hnone t (List.mem_cons_self _ _)
            omega
          · exact ts_tail_ge hsort (hrange t (List.mem_cons_self _ _)).1 u h
        rw [nonTsIn_cons_head hin hnone]
        obtain ⟨hle, hlen⟩ := ih (i + 1) n (t :: rest) (by omega) hsort hrange2
        constructor
        · omega
        · simp only [List.length_cons] at *
          omega
    | [] =>
      rw [nonTsIn_cons_head hin (by intro u hu; cases hu)]
      obtain ⟨hle, hlen⟩ := ih (i + 1) n [] (by omega) hsort (by intro u hu; cases hu)
      constructor
      · omega
      · simp only [List.length_cons] at *
        omega

theorem adjustErrorLoop_spec : ∀ (k i n : Nat) (ts : List Transformation)
    (ns ba j o : Nat),
    n - i = k →
    (∀ t ∈ ts, t.stripped = true) →
    List.Pairwise (fun a b : Transformation => a.index < b.index) ts →
    (∀ t ∈ ts, i ≤ t.index ∧ t.index < n) →
    (nonTsIn i n ts)[j]? = some o →
    adjustErrorLoop k i ts ns ba (ba + j) =
      some (ba + j + ns + (ts.filter (fun t => decide (t.index < o))).length) := by
  intro k
  induction k with
  | zero =>
    intro i n ts ns ba j o hk hstr hsort hrange hj
    have : nonTsIn i n ts = [] := by
      unfold nonTsIn
      rw [hk]
      rfl
    rw [this] at hj
    simp at hj
  | succ k ih =>
    intro i n ts ns ba j o hk hstr hsort hrange hj
    have hin : i < n := by omega
    match ts with
    | t :: rest =>
      by_cases hti : t.index = i
      · have hrest := ts_tail_ge hsort (hrange t (List.mem_cons_self _ _)).1
        have hj2 : (nonTsIn (i + 1) n rest)[j]? = some o := by
          rw [← nonTsIn_drop_head hti hrest]
          exact hj
        have hstr2 : ∀ u ∈ rest, u.stripped = true :=
          fun u hu => hstr u (List.mem_cons_of_mem _ hu)
        have hrange3 : ∀ u ∈ rest, i + 1 ≤ u.index ∧ u.index < n :=
          fun u hu => ⟨hrest u hu, (hrange u (List.mem_cons_of_mem _ hu)).2⟩
        have hge : i + 1 ≤ o :=
          (nonTsIn_getElem k (i + 1) n rest j o (by omega) hsort.of_cons hrange3 hj2).2
        show (if t.index = i then
            (if t.stripped = true then adjustErrorLoop k (i + 1) rest (ns + 1) ba (ba + j)
             else none)
          else if ba = ba + j then some (ba + j + ns)
          else adjustErrorLoop k (i + 1) (t :: rest) ns (ba + 1) (ba + j)) = _
        rw [if_pos hti, if_pos (hstr t (List.mem_cons_self _ _))]
        rw [ih (i + 1) n rest (ns + 1) ba j o (by omega) hstr2 hsort.of_cons hrange3 hj2]
        have hflt : decide (t.index < o) = true := by
          simp only [decide_eq_true_eq]
          omega
        rw [List.filter_cons, if_pos hflt]
        simp only [List.length_cons]
        congr 1
        omega
      · have hnone := ts_no_index_at hsort (fun u hu => (hrange u hu).1) hti
        have hrange2 : ∀ u ∈ t :: rest, i + 1 ≤ u.index ∧ u.index < n := by
          intro u hu
          refine ⟨?_, (hrange u hu).2⟩
          rcases List.mem_cons.mp hu with h | h
          · rw [h]
            have h0 := (hrange t (List.mem_cons_self _ _)).1
            have h1 := hnone t (List.mem_cons_self _ _)
            omega
          · exact ts_tail_ge hsort (hrange t (List.mem_cons_self _ _)).1 u h
        rw [nonTsIn_cons_head hin hnone] at hj
        show (if t.index = i then
            (if t.stripped = true then adjustErrorLoop k (i + 1) rest (ns + 1) ba (ba + j)
             else none)
          else if ba = ba + j then some (ba + j + ns)
          else adjustErrorLoop k (i + 1) (t :: rest) ns (ba + 1) (ba + j)) = _
        rw [if_neg hti]
        match j with
        | 0 =>
          simp only [List.getElem?_cons_zero] at hj
          injection hj with hj
          rw [if_pos (by omega : ba = ba + 0)]
          have hcount : ((t :: rest).filter
              (fun u => decide (u.index < o))) = [] := by
            rw [List.filter_eq_nil_iff]
            intro u hu
            have h1 := (hrange u hu).1
            simp only [decide_eq_true_eq]
            omega
          rw [hcount]
          simp
        | j' + 1 =>
          simp only [List.getElem?_cons_succ] at hj
          rw [if_neg (by omega : ¬ ba = ba + (j' + 1))]
          have harith : ba + (j' + 1) = (ba + 1) + j' := by omega
          rw [harith]
          rw [ih (i + 1) n (t :: rest) ns (ba + 1) j' o (by omega) hstr hsort hrange2 hj]
    | [] =>
      rw [nonTsIn_cons_head hin (by intro u hu; cases hu)] at hj
      show (if ba = ba + j then some (ba + j + ns)
          else adjustErrorLoop k (i + 1) [] ns (ba + 1) (ba + j)) = _
      match j with
      | 0 =>
        simp only [List.getElem?_cons_zero] at hj
        injection hj with hj
        rw [if_pos (by omega : ba = ba + 0)]
        simp
      | j' + 1 =>
        simp only [List.getElem?_cons_succ] at hj
        rw [if_neg (by omega : ¬ ba = ba + (j' + 1))]
        have harith : ba + (j' + 1) = (ba + 1) + j' := by omega
        rw [harith]
        rw [ih (i + 1) n [] ns (ba + 1) j' o (by omega) (by intro u hu; cases hu)
          hsort (by intro u hu; cases hu) hj]

/-! Lemmas for the scan merge (C1). -/

/-- Whether a read of key k at seq is served by the buffer. -/
def servedB (buf : Buffer) (seq : Nat) (k : Key) : Bool :=
  (maybeServeRead buf k seq).isSome

/-- The row a buffered record contributes to a merged scan: its visible value
when present, nothing when invisible or a tombstone. -/
def bufEmit (buf : Buffer) (seq : Nat) (bw : BufferedWrite) : Option KeyVal :=
  match maybeServeRead buf bw.key seq with
  | some (some b) => some ⟨bw.key, some b⟩
  | _ => none

/-- The expected merged response as a plain set of rows: the server rows whose
keys the buffer does not serve, together with the visible present buffered
values of the scanned span. -/
def expectedMerge (buf : Buffer) (seq : Nat) (bufIt : List BufferedWrite)
    (rows : List KeyVal) : List KeyVal :=
  rows.filter (fun r => !(servedB buf seq r.key)) ++ bufIt.filterMap (bufEmit buf seq)

theorem dirLt_false_iff {a b : Key} : dirLt false a b ↔ keyLt a b := by
  unfold dirLt dirOrd keyLt
  simp

theorem dirLt_true_iff {a b : Key} : dirLt true a b ↔ keyLt b a := by
  unfold dirLt dirOrd keyLt
  simp only [if_true]
  constructor
  · intro h
    rcases hc : keyCmp a b with _ | _ | _ <;> rw [hc] at h
    · cases h
    · cases h
    · exact keyCmp_gt_iff.mp hc
  · intro h
    have : keyCmp a b = .gt := keyCmp_gt_iff.mpr h
    rw [this]
    rfl

theorem dirOrd_eq_iff {reverse : Bool} {a b : Key} :
    dirOrd reverse a b = .eq ↔ a = b := by
  unfold dirOrd
  cases reverse
  · simp [keyCmp_eq_iff]
  · simp only [if_true]
    constructor
    · intro h
      rcases hc : keyCmp a b with _ | _ | _ <;> rw [hc] at h
      · cases h
      · exact keyCmp_eq_iff.mp hc
      · cases h
    · intro h
      rw [keyCmp_eq_iff.mpr h]
      rfl

theorem dirOrd_gt_iff {reverse : Bool} {a b : Key} :
    dirOrd reverse a b = .gt ↔ dirLt reverse b a := by
  unfold dirOrd dirLt dirOrd
  cases reverse
  · simp [keyCmp_gt_iff]
  · simp only [if_true]
    constructor
    · intro h
      rcases hc : keyCmp a b with _ | _ | _ <;> rw [hc] at h
      · rw [keyCmp_gt_iff.mpr hc]
        rfl
      · cases h
      · cases h
    · intro h
      rcases hc : keyCmp b a with _ | _ | _ <;> rw [hc] at h
      · cases h
      · cases h
      · rw [keyCmp_gt_iff.mp hc]
        rfl

theorem dirLt_trans {reverse : Bool} {a b c : Key}
    (hab : dirLt reverse a b) (hbc : dirLt reverse b c) : dirLt reverse a c := by
  cases reverse
  · rw [dirLt_false_iff] at *
    exact keyLt_trans hab hbc
  · rw [dirLt_true_iff] at *
    exact keyLt_trans hbc hab

theorem dirLt_ne {reverse : Bool} {a b : Key} (h : dirLt reverse a b) : a ≠ b := by
  cases reverse
  · exact keyLt_ne (dirLt_false_iff.mp h)
  · exact (keyLt_ne (dirLt_true_iff.mp h)).symm

theorem dirLt_asymm {reverse : Bool} {a b : Key}
    (h : dirLt reverse a b) : ¬ dirLt reverse b a := by
  intro h2
  exact dirLt_ne (dirLt_trans h h2) rfl

theorem bufEmit_key {buf : Buffer} {seq : Nat} {bw : BufferedWrite} {kv : KeyVal}
    (h : bufEmit buf seq bw = some kv) : kv.key = bw.key := by
  unfold bufEmit at h
  rcases hm : maybeServeRead buf bw.key seq with _ | v
  · rw [hm] at h; cases h
  · rw [hm] at h
    rcases v with _ | b
    · cases h
    · injection h with h
      rw [← h]

theorem mem_expectedMerge {buf : Buffer} {seq : Nat} {bufIt : List BufferedWrite}
    {rows : List KeyVal} {kv : KeyVal} (h : kv ∈ expectedMerge buf seq bufIt rows) :
    kv ∈ rows ∨ ∃ bw ∈ bufIt, kv.key = bw.key := by
  unfold expectedMerge at h
  rcases List.mem_append.mp h with h | h
  · exact Or.inl (List.mem_of_mem_filter h)
  · obtain ⟨bw, hbw, hemit⟩ := List.mem_filterMap.mp h
    exact Or.inr ⟨bw, hbw, bufEmit_key hemit⟩

theorem merge_nil_rows (buf : Buffer) (seq : Nat) (reverse : Bool) (rows : List KeyVal) :
    mergeBufferAndResp buf seq reverse [] rows = rows := by
  rw [mergeBufferAndResp]

theorem merge_drain_buf (buf : Buffer) (seq : Nat) (reverse : Bool)
    (bw : BufferedWrite) (bufRest : List BufferedWrite) :
    mergeBufferAndResp buf seq reverse (bw :: bufRest) [] =
      (match maybeServeRead buf bw.key seq with
       | some (some b) => ⟨bw.key, some b⟩ :: mergeBufferAndResp buf seq reverse bufRest []
       | _ => mergeBufferAndResp buf seq reverse bufRest []) := by
  rw [mergeBufferAndResp]

theorem merge_cons_cons (buf : Buffer) (seq : Nat) (reverse : Bool)
    (bw : BufferedWrite) (bufRest : List BufferedWrite) (r : KeyVal)
    (rowsRest : List KeyVal) :
    mergeBufferAndResp buf seq reverse (bw :: bufRest) (r :: rowsRest) =
      (match dirOrd reverse bw.key r.key with
      | .lt =>
        match maybeServeRead buf bw.key seq with
        | some (some b) =>
          ⟨bw.key, some b⟩ :: mergeBufferAndResp buf seq reverse bufRest (r :: rowsRest)
        | _ => mergeBufferAndResp buf seq reverse bufRest (r :: rowsRest)
      | .eq =>
        match maybeServeRead buf bw.key seq with
        | some (some b) =>
          ⟨bw.key, some b⟩ :: mergeBufferAndResp buf seq reverse bufRest rowsRest
        | some none => mergeBufferAndResp buf seq reverse bufRest rowsRest
        | none => r :: mergeBufferAndResp buf seq reverse bufRest rowsRest
      | .gt => r :: mergeBufferAndResp buf seq reverse (bw :: bufRest) rowsRest) := by
  rw [mergeBufferAndResp]

theorem expectedMerge_bufCons_skip {buf : Buffer} {seq : Nat} {bw : BufferedWrite}
    {bufRest : List BufferedWrite} {rows : List KeyVal}
    (h : bufEmit buf seq bw = none) :
    expectedMerge buf seq (bw :: bufRest) rows = expectedMerge buf seq bufRest rows := by
  unfold expectedMerge
  rw [List.filterMap_cons_none h]

theorem expectedMerge_bufCons_emit {buf : Buffer} {seq : Nat} {bw : BufferedWrite}
    {bufRest : List BufferedWrite} {rows : List KeyVal} {kv : KeyVal}
    (h : bufEmit buf seq bw = some kv) :
    expectedMerge buf seq (bw :: bufRest) rows =
      rows.filter (fun r => !(servedB buf seq r.key)) ++
        kv :: bufRest.filterMap (bufEmit buf seq) := by
  unfold expectedMerge
  rw [List.filterMap_cons_some h]

theorem expectedMerge_rowCons_kept {buf : Buffer} {seq : Nat}
    {bufIt : List BufferedWrite} {r : KeyVal} {rows : List KeyVal}
    (h : servedB buf seq r.key = false) :
    expectedMerge buf seq bufIt (r :: rows) = r :: expectedMerge buf seq bufIt rows := by
  unfold expectedMerge
  rw [List.filter_cons_of_pos (by simp [h])]
  rfl

theorem expectedMerge_rowCons_dropped {buf : Buffer} {seq : Nat}
    {bufIt : List BufferedWrite} {r : KeyVal} {rows : List KeyVal}
    (h : servedB buf seq r.key = true) :
    expectedMerge buf seq bufIt (r :: rows) = expectedMerge buf seq bufIt rows := by
  unfold expectedMerge
  rw [List.filter_cons_of_neg (by simp [h])]

/-- The merge loop is correct generically in the scan direction: given the
buffer cursor and the server rows each strictly sorted in scan order, and
every served row key present in the cursor, the produced rows are exactly the
expected rows (as a multiset) and strictly sorted in scan order. -/
theorem mergeBufferAndResp_spec : ∀ (fuel : Nat) (buf : Buffer) (seq : Nat)
    (reverse : Bool) (bufIt : List BufferedWrite) (rows : List KeyVal),
    bufIt.length + rows.length ≤ fuel →
    List.Pairwise (fun a b : BufferedWrite => dirLt reverse a.key b.key) bufIt →
    List.Pairwise (fun a b : KeyVal => dirLt reverse a.key b.key) rows →
    (∀ r ∈ rows, servedB buf seq r.key = true → ∃ bw ∈ bufIt, bw.key = r.key) →
    (mergeBufferAndResp buf seq reverse bufIt rows).Perm
        (expectedMerge buf seq bufIt rows) ∧
      List.Pairwise (fun a b : KeyVal => dirLt reverse a.key b.key)
        (mergeBufferAndResp buf seq reverse bufIt rows) := by
  intro fuel
  induction fuel with
  | zero =>
    intro buf seq reverse bufIt rows hfuel hbuf hrows hcoup
    have h1 : bufIt = [] := List.length_eq_zero.mp (by omega)
    have h2 : rows = [] := List.length_eq_zero.mp (by omega)
    subst h1
    subst h2
    rw [merge_nil_rows]
    exact ⟨by unfold expectedMerge; simp, List.Pairwise.nil⟩
  | succ fuel ih =>
    intro buf seq reverse bufIt rows hfuel hbuf hrows hcoup
    match bufIt, rows with
    | [], rows =>
      rw [merge_nil_rows]
      have hfilter : rows.filter (fun r => !(servedB buf seq r.key)) = rows := by
        rw [List.filter_eq_self]
        intro r hr
        cases hs : servedB buf seq r.key
        · rfl
        · obtain ⟨bw, hbw, _⟩ := hcoup r hr hs
          cases hbw
      constructor
      · unfold expectedMerge
        rw [hfilter]
        simp
      · exact hrows
    | bw :: bufRest, [] =>
      have hfuel2 : bufRest.length + ([] : List KeyVal).length ≤ fuel := by
        simp only [List.length_cons, List.length_nil] at hfuel ⊢
        omega
      obtain ⟨subP, subS⟩ := ih buf seq reverse bufRest [] hfuel2 hbuf.of_cons
        List.Pairwise.nil (by intro r hr; cases hr)
      rcases hv : maybeServeRead buf bw.key seq with _ | v
      · have hemit : bufEmit buf seq bw = none := by unfold bufEmit; rw [hv]
        rw [merge_drain_buf]
        simp only [hv]
        rw [expectedMerge_bufCons_skip hemit]
        exact ⟨subP, subS⟩
      · rcases v with _ | b
        · have hemit : bufEmit buf seq bw = none := by unfold bufEmit; rw [hv]
          rw [merge_drain_buf]
          simp only [hv]
          rw [expectedMerge_bufCons_skip hemit]
          exact ⟨subP, subS⟩
        · have hemit : bufEmit buf seq bw = some ⟨bw.key, some b⟩ := by
            unfold bufEmit
            rw [hv]
          rw [merge_drain_buf]
          simp only [hv]
          rw [expectedMerge_bufCons_emit hemit]
          constructor
          · refine (List.Perm.cons _ subP).trans ?_
            exact List.perm_middle.symm
          · refine List.Pairwise.cons ?_ subS
            intro kv hkv
            rcases mem_expectedMerge ((subP.mem_iff).mp hkv) with h | ⟨bw2, hbw2, hk⟩
            · cases h
            · rw [hk]
              exact List.rel_of_pairwise_cons hbuf hbw2
    | bw :: bufRest, r :: rowsRest =>
      have hfl : bufRest.length + (r :: rowsRest).length ≤ fuel := by
        simp only [List.length_cons] at hfuel ⊢
        omega
      have hfr : (bw :: bufRest).length + rowsRest.length ≤ fuel := by
        simp only [List.length_cons] at hfuel ⊢
        omega
      have hfb : bufRest.length + rowsRest.length ≤ fuel := by
        simp only [List.length_cons] at hfuel ⊢
        omega
      rcases hcmp : dirOrd reverse bw.key r.key with _ | _ | _
      · -- buffer key strictly first in scan order
        have hcoup2 : ∀ r' ∈ r :: rowsRest, servedB buf seq r'.key = true →
            ∃ bw2 ∈ bufRest, bw2.key = r'.key := by
          intro r2 hr2 hs
          obtain ⟨bw2, hbw2, hk⟩ := hcoup r2 hr2 hs
          rcases List.mem_cons.mp hbw2 with h | h
          · exfalso
            rw [h] at hk
            rcases List.mem_cons.mp hr2 with h2 | h2
            · rw [h2] at hk
              have heq : dirOrd reverse bw.key r.key = .eq := dirOrd_eq_iff.mpr hk
              rw [heq] at hcmp
              cases hcmp
            · have h3 : dirLt reverse r.key r2.key := List.rel_of_pairwise_cons hrows h2
              rw [← hk] at h3
              exact dirLt_asymm hcmp h3
          · exact ⟨bw2, h, hk⟩
        obtain ⟨subP, subS⟩ := ih buf seq reverse bufRest (r :: rowsRest) hfl
          hbuf.of_cons hrows hcoup2
        rcases hv : maybeServeRead buf bw.key seq with _ | v
        · have hemit : bufEmit buf seq bw = none := by unfold bufEmit; rw [hv]
          rw [merge_cons_cons]
          simp only [hcmp, hv]
          rw [expectedMerge_bufCons_skip hemit]
          exact ⟨subP, subS⟩
        · rcases v with _ | b
          · have hemit : bufEmit buf seq bw = none := by unfold bufEmit; rw [hv]
            rw [merge_cons_cons]
            simp only [hcmp, hv]
            rw [expectedMerge_bufCons_skip hemit]
            exact ⟨subP, subS⟩
          · have hemit : bufEmit buf seq bw = some ⟨bw.key, some b⟩ := by
              unfold bufEmit
              rw [hv]
            rw [merge_cons_cons]
            simp only [hcmp, hv]
            rw [expectedMerge_bufCons_emit hemit]
            constructor
            · refine (List.Perm.cons _ subP).trans ?_
              exact List.perm_middle.symm
            · refine List.Pairwise.cons ?_ subS
              intro kv hkv
              rcases mem_expectedMerge ((subP.mem_iff).mp hkv) with h | ⟨bw2, hbw2, hk⟩
              · rcases List.mem_cons.mp h with h2 | h2
                · rw [h2]
                  exact hcmp
                · exact dirLt_trans hcmp (List.rel_of_pairwise_cons hrows h2)
              · rw [hk]
                exact List.rel_of_pairwise_cons hbuf hbw2
      · -- equal keys
        have hkey : bw.key = r.key := dirOrd_eq_iff.mp hcmp
        have hcoup2 : ∀ r2 ∈ rowsRest, servedB buf seq r2.key = true →
            ∃ bw2 ∈ bufRest, bw2.key = r2.key := by
          intro r2 hr2 hs
          obtain ⟨bw2, hbw2, hk⟩ := hcoup r2 (List.mem_cons_of_mem _ hr2) hs
          rcases List.mem_cons.mp hbw2 with h | h
          · exfalso
            rw [h] at hk
            rw [hkey] at hk
            have h3 : dirLt reverse r.key r2.key := List.rel_of_pairwise_cons hrows hr2
            exact dirLt_ne h3 hk
          · exact ⟨bw2, h, hk⟩
        obtain ⟨subP, subS⟩ := ih buf seq reverse bufRest rowsRest hfb
          hbuf.of_cons hrows.of_cons hcoup2
        rcases hv : maybeServeRead buf bw.key seq with _ | v
        · -- not visible: keep the server row
          have hsr : servedB buf seq r.key = false := by
            unfold servedB
            rw [← hkey, hv]
            rfl
          rw [merge_cons_cons]
          simp only [hcmp, hv]
          have hemit : bufEmit buf seq bw = none := by unfold bufEmit; rw [hv]
          rw [expectedMerge_rowCons_kept hsr, expectedMerge_bufCons_skip hemit]
          constructor
          · exact subP.cons r
          · refine List.Pairwise.cons ?_ subS
            intro kv hkv
            rcases mem_expectedMerge ((subP.mem_iff).mp hkv) with h | ⟨bw2, hbw2, hk⟩
            · exact List.rel_of_pairwise_cons hrows h
            · rw [hk, ← hkey]
              exact List.rel_of_pairwise_cons hbuf hbw2
        · rcases v with _ | b
          · -- visible tombstone: suppress the row
            have hsr : servedB buf seq r.key = true := by
              unfold servedB
              rw [← hkey, hv]
              rfl
            have hemit : bufEmit buf seq bw = none := by unfold bufEmit; rw [hv]
            rw [merge_cons_cons]
            simp only [hcmp, hv]
            rw [expectedMerge_rowCons_dropped hsr, expectedMerge_bufCons_skip hemit]
            exact ⟨subP, subS⟩
          · -- visible present value: replace the server row
            have hsr : servedB buf seq r.key = true := by
              unfold servedB
              rw [← hkey, hv]
              rfl
            have hemit : bufEmit buf seq bw = some ⟨bw.key, some b⟩ := by
              unfold bufEmit
              rw [hv]
            rw [merge_cons_cons]
            simp only [hcmp, hv]
            rw [expectedMerge_rowCons_dropped hsr, expectedMerge_bufCons_emit hemit]
            constructor
            · refine (List.Perm.cons _ subP).trans ?_
              exact List.perm_middle.symm
            · refine List.Pairwise.cons ?_ subS
              intro kv hkv
              rcases mem_expectedMerge ((subP.mem_iff).mp hkv) with h | ⟨bw2, hbw2, hk⟩
              · rw [hkey]
                exact List.rel_of_pairwise_cons hrows h
              · rw [hk]
                exact List.rel_of_pairwise_cons hbuf hbw2
      · -- server key strictly first in scan order
        have hlt : dirLt reverse r.key bw.key := dirOrd_gt_iff.mp hcmp
        have hsr : servedB buf seq r.key = false := by
          cases hs : servedB buf seq r.key
          · rfl
          · exfalso
            obtain ⟨bw2, hbw2, hk⟩ := hcoup r (List.mem_cons_self _ _) hs
            rcases List.mem_cons.mp hbw2 with h | h
            · rw [h] at hk
              have heq : dirOrd reverse bw.key r.key = .eq := dirOrd_eq_iff.mpr hk
              rw [heq] at hcmp
              cases hcmp
            · have h2 : dirLt reverse bw.key bw2.key := List.rel_of_pairwise_cons hbuf h
              rw [hk] at h2
              exact dirLt_asymm h2 hlt
        obtain ⟨subP, subS⟩ := ih buf seq reverse (bw :: bufRest) rowsRest hfr
          hbuf hrows.of_cons
          (fun r2 hr2 hs => hcoup r2 (List.mem_cons_of_mem _ hr2) hs)
        rw [merge_cons_cons]
        simp only [hcmp]
        rw [expectedMerge_rowCons_kept hsr]
        constructor
        · exact subP.cons r
        · refine List.Pairwise.cons ?_ subS
          intro kv hkv
          rcases mem_expectedMerge ((subP.mem_iff).mp hkv) with h | ⟨bw2, hbw2, hk⟩
          · exact List.rel_of_pairwise_cons hrows h
          · rcases List.mem_cons.mp hbw2 with h2 | h2
            · rw [hk, h2]
              exact hlt
            · rw [hk]
              exact dirLt_trans hlt (List.rel_of_pairwise_cons hbuf h2)

/-- C1: a Scan response merged with the buffer equals, as a set of rows, the
server rows with every buffered write visible at the request's sequence
number applied on top — a visible present value replaces or inserts the row
at its key, a visible tombstone removes it — listed in strictly ascending key
order; a ReverseScan is the same with strictly descending order, i.e. the
order the server would have produced had the buffered writes been durable
before the scan. -/
theorem claim_C1 (twb : TxnWriteBuffer) (startKey endKey : Key) (seq : Nat)
    (rows rrows : List KeyVal)
    (hbuf : List.Pairwise (fun a b : BufferedWrite => keyLt a.key b.key) twb.buffer)
    (hrows : List.Pairwise (fun a b : KeyVal => keyLt a.key b.key) rows)
    (hrowsRange : ∀ r ∈ rows, rangeContains startKey endKey r.key = true)
    (hrrows : List.Pairwise (fun a b : KeyVal => keyLt b.key a.key) rrows)
    (hrrowsRange : ∀ r ∈ rrows, rangeContains startKey endKey r.key = true) :
    ((mergeWithScanResp twb startKey endKey seq rows).Perm
        (expectedMerge twb.buffer seq (overlapAsc twb.buffer startKey endKey) rows) ∧
      List.Pairwise (fun a b : KeyVal => keyLt a.key b.key)
        (mergeWithScanResp twb startKey endKey seq rows)) ∧
    ((mergeWithReverseScanResp twb startKey endKey seq rrows).Perm
        (expectedMerge twb.buffer seq (overlapAsc twb.buffer startKey endKey) rrows) ∧
      List.Pairwise (fun a b : KeyVal => keyLt b.key a.key)
        (mergeWithReverseScanResp twb startKey endKey seq rrows)) := by
  have hbufO : List.Pairwise (fun a b : BufferedWrite => keyLt a.key b.key)
      (overlapAsc twb.buffer startKey endKey) := hbuf.filter _
  have hserve_mem : ∀ (k : Key), servedB twb.buffer seq k = true →
      ∃ bw, bw ∈ twb.buffer ∧ bw.key = k := by
    intro k hs
    unfold servedB at hs
    rcases hm : maybeServeRead twb.buffer k seq with _ | v
    · rw [hm] at hs
      cases hs
    · unfold maybeServeRead at hm
      rcases hl : bufferLookup twb.buffer k with _ | bw
      · rw [hl] at hm
        cases hm
      · obtain ⟨hmem, hkeq⟩ := bufferLookup_mem hl
        exact ⟨bw, hmem, hkeq⟩
  constructor
  · -- forward scan
    have hcoup : ∀ r ∈ rows, servedB twb.buffer seq r.key = true →
        ∃ bw ∈ overlapAsc twb.buffer startKey endKey, bw.key = r.key := by
      intro r hr hs
      obtain ⟨bw, hmem, hkeq⟩ := hserve_mem r.key hs
      refine ⟨bw, ?_, hkeq⟩
      unfold overlapAsc
      rw [List.mem_filter]
      refine ⟨hmem, ?_⟩
      rw [hkeq]
      exact hrowsRange r hr
    obtain ⟨hP, hS⟩ := mergeBufferAndResp_spec
      ((overlapAsc twb.buffer startKey endKey).length + rows.length)
      twb.buffer seq false (overlapAsc twb.buffer startKey endKey) rows
      (Nat.le_refl _)
      (hbufO.imp (fun h => dirLt_false_iff.mpr h))
      (hrows.imp (fun h => dirLt_false_iff.mpr h))
      hcoup
    exact ⟨hP, hS.imp (fun h => dirLt_false_iff.mp h)⟩
  · -- reverse scan
    have hcoup : ∀ r ∈ rrows, servedB twb.buffer seq r.key = true →
        ∃ bw ∈ (overlapAsc twb.buffer startKey endKey).reverse, bw.key = r.key := by
      intro r hr hs
      obtain ⟨bw, hmem, hkeq⟩ := hserve_mem r.key hs
      refine ⟨bw, List.mem_reverse.mpr ?_, hkeq⟩
      unfold overlapAsc
      rw [List.mem_filter]
      refine ⟨hmem, ?_⟩
      rw [hkeq]
      exact hrrowsRange r hr
    obtain ⟨hP, hS⟩ := mergeBufferAndResp_spec
      ((overlapAsc twb.buffer startKey endKey).reverse.length + rrows.length)
      twb.buffer seq true ((overlapAsc twb.buffer startKey endKey).reverse) rrows
      (Nat.le_refl _)
      (List.pairwise_reverse.mpr (hbufO.imp (fun h => dirLt_true_iff.mpr h)))
      (hrrows.imp (fun h => dirLt_true_iff.mpr h))
      hcoup
    refine ⟨hP.trans ?_, hS.imp (fun h => dirLt_true_iff.mp h)⟩
    unfold expectedMerge
    exact List.Perm.append (List.Perm.refl _)
      ((List.reverse_perm _).filterMap _)

theorem claim_C1_witness :
    List.Pairwise (fun a b : BufferedWrite => keyLt a.key b.key)
      ([⟨1, [97], [⟨some [1], 3⟩]⟩, ⟨2, [99], [⟨none, 4⟩]⟩] : Buffer) ∧
    List.Pairwise (fun a b : KeyVal => keyLt a.key b.key)
      ([⟨[98], some [88]⟩, ⟨[99], some [89]⟩, ⟨[100], some [90]⟩] : List KeyVal) ∧
    List.Pairwise (fun a b : KeyVal => keyLt b.key a.key)
      ([⟨[100], some [90]⟩, ⟨[98], some [88]⟩] : List KeyVal) ∧
    ((mergeWithScanResp ⟨true, [⟨1, [97], [⟨some [1], 3⟩]⟩, ⟨2, [99], [⟨none, 4⟩]⟩], 2⟩
        [97] [122] 5 [⟨[98], some [88]⟩, ⟨[99], some [89]⟩, ⟨[100], some [90]⟩]).Perm
      (expectedMerge [⟨1, [97], [⟨some [1], 3⟩]⟩, ⟨2, [99], [⟨none, 4⟩]⟩] 5
        (overlapAsc [⟨1, [97], [⟨some [1], 3⟩]⟩, ⟨2, [99], [⟨none, 4⟩]⟩] [97] [122])
        [⟨[98], some [88]⟩, ⟨[99], some [89]⟩, ⟨[100], some [90]⟩]) ∧
      List.Pairwise (fun a b : KeyVal => keyLt a.key b.key)
        (mergeWithScanResp ⟨true, [⟨1, [97], [⟨some [1], 3⟩]⟩, ⟨2, [99], [⟨none, 4⟩]⟩], 2⟩
          [97] [122] 5 [⟨[98], some [88]⟩, ⟨[99], some [89]⟩, ⟨[100], some [90]⟩])) :=
  ⟨by decide, by decide, by decide,
    (claim_C1 ⟨true, [⟨1, [97], [⟨some [1], 3⟩]⟩, ⟨2, [99], [⟨none, 4⟩]⟩], 2⟩
      [97] [122] 5 [⟨[98], some [88]⟩, ⟨[99], some [89]⟩, ⟨[100], some [90]⟩]
      [⟨[100], some [90]⟩, ⟨[98], some [88]⟩]
      (by decide) (by decide) (by decide) (by decide) (by decide)).1⟩

/-- C6 is refuted as stated; this proves the amended remapping guarantee: on
the non-flush path, when every recorded transformation is stripped, a
downstream error at forwarded index j is remapped to the original client
index of the request forwarded at position j, which exceeds j by exactly the
number of stripped transformations whose original index precedes it. -/
theorem claim_C6 (forwarded : List Request) (ts : List Transformation)
    (errIdx : Nat) (pk : ErrKind) (wt : Bool)
    (hstr : ∀ t ∈ ts, t.stripped = true)
    (hsort : List.Pairwise (fun a b : Transformation => a.index < b.index) ts)
    (hrange : ∀ t ∈ ts, t.index < forwarded.length + ts.length)
    (herr : errIdx < forwarded.length) :
    ∃ o, (origIndices (forwarded.length + ts.length) ts)[errIdx]? = some o ∧
      adjustError forwarded ts ⟨pk, some errIdx, wt⟩ = some ⟨pk, some o, wt⟩ ∧
      o = errIdx + (ts.filter (fun t => decide (t.index < o))).length := by
  set n := forwarded.length + ts.length with hn
  have hrange0 : ∀ t ∈ ts, 0 ≤ t.index ∧ t.index < n :=
    fun t ht => ⟨Nat.zero_le _, hrange t ht⟩
  obtain ⟨hle, hlen⟩ := nonTsIn_length n 0 n ts (by omega) hsort hrange0
  have hlt : errIdx < (nonTsIn 0 n ts).length := by
    rw [hlen]
    omega
  have hj : (nonTsIn 0 n ts)[errIdx]? = some (nonTsIn 0 n ts)[errIdx] :=
    List.getElem?_eq_getElem hlt
  set o := (nonTsIn 0 n ts)[errIdx] with hodef
  obtain ⟨ho, _⟩ := nonTsIn_getElem n 0 n ts errIdx o (by omega) hsort hrange0 hj
  refine ⟨o, hj, ?_, by omega⟩
  unfold adjustError
  simp only
  have hloop := adjustErrorLoop_spec n 0 n ts 0 0 errIdx o (by omega) hstr hsort hrange0 hj
  simp only [Nat.zero_add] at hloop
  rw [hloop]
  have : errIdx + 0 + (ts.filter (fun t => decide (t.index < o))).length = o := by
    omega
  rw [this]

theorem claim_C6_witness :
    (∀ t ∈ ([⟨true, 0, Request.put [1] (some [2]) 1, Response.put⟩] :
        List Transformation), t.stripped = true) ∧
    (0 : Nat) < ([Request.get [3] 2 .none false] : List Request).length ∧
    (∃ o, (origIndices
        (([Request.get [3] 2 .none false] : List Request).length +
          ([⟨true, 0, Request.put [1] (some [2]) 1, Response.put⟩] :
            List Transformation).length)
        [⟨true, 0, Request.put [1] (some [2]) 1, Response.put⟩])[0]? = some o ∧
      adjustError [Request.get [3] 2 .none false]
        [⟨true, 0, Request.put [1] (some [2]) 1, Response.put⟩]
        ⟨.other, some 0, false⟩ = some ⟨.other, some o, false⟩ ∧
      o = 0 + (([⟨true, 0, Request.put [1] (some [2]) 1, Response.put⟩] :
          List Transformation).filter (fun t => decide (t.index < o))).length) :=
  ⟨by decide, by decide,
    claim_C6 [Request.get [3] 2 .none false]
      [⟨true, 0, Request.put [1] (some [2]) 1, Response.put⟩] 0 .other false
      (by decide) (by decide) (by decide) (by decide)⟩

/-- C6 as stated is refuted: with a non-stripped scan transformation recorded
at original index 0, a downstream error at forwarded index 1 — whose request
is an untransformed Get, so the claim demands a remap to original index 1 —
is instead treated as fatal (none) by adjustError, because the walk meets the
non-stripped transformation before reaching the error position. -/
theorem claim_C6_counterexample :
    (forwardedOrigIndices 2
      [⟨false, 0, Request.scan [0] [5] 3, Response.empty⟩])[1]? = some 1 ∧
    ((([⟨false, 0, Request.scan [0] [5] 3, Response.empty⟩] :
        List Transformation).any (fun t => !t.stripped && decide (t.index = 1))) = false) ∧
    adjustError [Request.scan [0] [5] 3, Request.get [4] 3 .none false]
      [⟨false, 0, Request.scan [0] [5] 3, Response.empty⟩]
      ⟨.other, some 1, false⟩ = none := by
  refine ⟨?_, ?_, ?_⟩
  · decide
  · decide
  · decide

theorem claim_C9_witness :
    (⟨true, [⟨1, [1], [⟨some [7], 2⟩]⟩, ⟨2, [3], [⟨none, 4⟩]⟩], 2⟩ :
        TxnWriteBuffer).enabled = true ∧
    (([⟨1, [1], [⟨some [7], 2⟩]⟩, ⟨2, [3], [⟨none, 4⟩]⟩] : Buffer) ≠ []) ∧
    initializeLeaf ⟨false, [], 0⟩
        (populateLeafInputState ⟨true, [⟨1, [1], [⟨some [7], 2⟩]⟩, ⟨2, [3], [⟨none, 4⟩]⟩], 2⟩) =
      ⟨true, [⟨1, [1], [⟨some [7], 2⟩]⟩, ⟨2, [3], [⟨none, 4⟩]⟩], 0⟩ :=
  ⟨rfl, by decide,
    claim_C9 ⟨true, [⟨1, [1], [⟨some [7], 2⟩]⟩, ⟨2, [3], [⟨none, 4⟩]⟩], 2⟩ false
      rfl (by decide) (by decide)⟩

end WriteBuffer
